import Mathlib

/-!
# CTRCalculator: a verification development of `src/main.cpp`

The interpreter `execute` of the RPN calculator is embedded as a Lean function.

* `std::string` is a list of characters (`Str`).
* `std::deque<number_t> stack` is a list whose LAST element is the top (`back`).
* `std::map<std::string, std::string> aliases` is a key-sorted association list.
* `static std::string lastInput` is a field of the explicit interpreter state.
* `number_t` (`long double`) and the library routines the interpreter calls on it
  (`std::stold`, `std::format`, `llroundl`, the `<cmath>` functions, the arithmetic
  operators) are a parameter `NumberT α` of the embedding: every general theorem
  holds for any implementation of that interface.  `exact` is one executable
  instance (exact rational arithmetic on decimal literals) used to run examples.
* `execute` recurses without bound in the source (alias cycles); the embedding
  counts recursive calls with a fuel argument, and `Runs` states that a call
  returns a result for some (hence any larger) amount of fuel.
* `pop_back()` on an empty deque is undefined behaviour in the source; the embedding
  reports it as the outcome `invalidAccess`.
* Text written to `std::cout` (the `ERR!` banner, the `\aliases` listing) is not
  part of the modelled state.
-/

namespace CTRCalculator

/-! ## Strings -/

abbrev Str := List Char

/-- The predicate `std::isspace` in the default "C" locale. -/
def isspace (ch : Char) : Bool :=
  ch == ' ' || ch == '\t' || ch == '\n' || ch == '\x0b' || ch == '\x0c' || ch == '\r'

/-- Source `eraseWhitespace` (main.cpp 66-71): deletes every whitespace character. -/
def eraseWhitespace (s : Str) : Str :=
  s.filter (fun ch => !isspace ch)

/-- The call `std::string::find(char)`: index of the first occurrence, `none` for `npos`. -/
def find (c : Char) : Str → Option Nat
  | [] => none
  | x :: xs => if x = c then some 0 else (find c xs).map (· + 1)

/-- The call `std::string::front()`; on the empty string it reads the terminating NUL,
as `operator[](0)` does. -/
def front (s : Str) : Char := s.headD '\x00'

/-- The call `std::string::back()` (only called on non-empty strings). -/
def back (s : Str) : Char := s.getLastD '\x00'

/-- Lines 126-127 of `execute`: erase everything from the first `#`. -/
def eraseComment (input : Str) : Str :=
  match find '#' input with
  | some commentPos => input.take commentPos
  | none => input

/-! ## Parenthetical extractor (main.cpp 82-103) -/

/-- The `for` loop of `processParenthetical`: scans the characters from index `i` on with the
running counter `num_parens`; returns the index at which the counter is zero after the update.
The counter is a `size_t`: a decrement at zero wraps around. -/
def scanParens (openChar closeChar : Char) : Str → Nat → Nat → Option Nat
  | [], _, _ => none
  | c :: cs, i, num_parens =>
    let num :=
      if c = openChar then num_parens + 1
      else if c = closeChar then (if num_parens = 0 then 2 ^ 64 - 1 else num_parens - 1)
      else num_parens
    if num = 0 then some i else scanParens openChar closeChar cs (i + 1) num

/-- Source `processParenthetical`: `none` is the return value `false` (outputs untouched),
`some (expr, rest)` is `true` with the two output strings. -/
def processParenthetical (str : Str) (openChar closeChar : Char) : Option (Str × Str) :=
  if front str ≠ openChar then none
  else
    match scanParens openChar closeChar str 0 0 with
    | some i => some ((str.drop 1).take (i - 1), str.drop (i + 1))
    | none => none

/-- Source `processParenthetical` with its two output parameters explicit: the returned flag
and the values of `expr` and `rest` after the call, given their values before it.  The source
assigns them only on the path that returns `true` (main.cpp 96-99). -/
def processParentheticalOut (str : Str) (openChar closeChar : Char) (expr rest : Str) :
    Bool × Str × Str :=
  match processParenthetical str openChar closeChar with
  | some (e, r) => (true, e, r)
  | none => (false, expr, rest)

/-- Nesting depth after reading `s` from depth `d`; `none` when a close delimiter is met at
depth zero. -/
def depth (openChar closeChar : Char) : Str → Nat → Option Nat
  | [], d => some d
  | x :: xs, d =>
    if x = openChar then depth openChar closeChar xs (d + 1)
    else if x = closeChar then
      (if d = 0 then none else depth openChar closeChar xs (d - 1))
    else depth openChar closeChar xs d

/-- Balanced text: every close delimiter matches an earlier open one and none stays open. -/
def Balanced (openChar closeChar : Char) (s : Str) : Prop :=
  depth openChar closeChar s 0 = some 0

instance Balanced.decidable (o c : Char) (s : Str) : Decidable (Balanced o c s) := by
  unfold Balanced
  infer_instance

/-! ## The numeric type and its library -/

/-- The functions instantiated by the macro `unaryFunction(name)` (main.cpp 262-279),
in source order. -/
inductive UnaryFn
  | sqrt | cbrt | sin | cos | tan | asin | acos | atan | sinh | cosh | tanh
  | asinh | acosh | atanh | log | log2 | log10 | exp
  deriving DecidableEq, Repr

/-- The command text `name` of each `unaryFunction(name)` (without the leading backslash). -/
def UnaryFn.name : UnaryFn → Str
  | .sqrt => ['s', 'q', 'r', 't']
  | .cbrt => ['c', 'b', 'r', 't']
  | .sin => ['s', 'i', 'n']
  | .cos => ['c', 'o', 's']
  | .tan => ['t', 'a', 'n']
  | .asin => ['a', 's', 'i', 'n']
  | .acos => ['a', 'c', 'o', 's']
  | .atan => ['a', 't', 'a', 'n']
  | .sinh => ['s', 'i', 'n', 'h']
  | .cosh => ['c', 'o', 's', 'h']
  | .tanh => ['t', 'a', 'n', 'h']
  | .asinh => ['a', 's', 'i', 'n', 'h']
  | .acosh => ['a', 'c', 'o', 's', 'h']
  | .atanh => ['a', 't', 'a', 'n', 'h']
  | .log => ['l', 'o', 'g']
  | .log2 => ['l', 'o', 'g', '2']
  | .log10 => ['l', 'o', 'g', '1', '0']
  | .exp => ['e', 'x', 'p']

/-- The chain of `unaryFunction(...)` branches, tried in source order. -/
def UnaryFn.all : List UnaryFn :=
  [.sqrt, .cbrt, .sin, .cos, .tan, .asin, .acos, .atan, .sinh, .cosh, .tanh,
   .asinh, .acosh, .atanh, .log, .log2, .log10, .exp]

/-- Characters with which a text accepted by `strtold` can begin: leading whitespace (which it
skips), a sign, a digit, the decimal point, or the first letter of `inf` / `nan`. -/
def numStart (c : Char) : Bool :=
  isspace c || c.isDigit || c == '+' || c == '-' || c == '.' || c == 'i' || c == 'I' ||
    c == 'n' || c == 'N'

/-- Characters that `std::format("{}", x)` can produce for a floating value:
digits, sign, point, exponent marker, and the letters of `inf` and `nan`. -/
def fmtChar (c : Char) : Bool :=
  c.isDigit || c == '+' || c == '-' || c == '.' || c == 'e' || c == 'i' || c == 'n' ||
    c == 'f' || c == 'a'

/-- The numeric type `number_t` with the library routines `execute` uses on it.
`stold` is `std::stold(str, &pos)`: `none` when it throws, otherwise the value and the
number of converted characters.  `lhsFirst` and `argFirst` fix the compiler's choice in the
two places where the source leaves the order of the two `pop_back()` calls unspecified
(operands of `+ - *`, arguments of `powl`). -/
structure NumberT (α : Type) where
  stold : Str → Option (α × Nat)
  format : α → Str
  add : α → α → α
  sub : α → α → α
  mul : α → α → α
  div : α → α → α
  powl : α → α → α
  one : α
  unaryl : UnaryFn → α → α
  llroundl : α → Int
  ltZero : α → Bool
  lhsFirst : Bool
  argFirst : Bool
  add_comm : ∀ a b, add a b = add b a
  mul_comm : ∀ a b, mul a b = mul b a
  stold_pos : ∀ s v n, stold s = some (v, n) → 0 < n ∧ n ≤ s.length
  stold_head : ∀ s v n, stold s = some (v, n) → numStart (front s) = true
  format_ne_nil : ∀ v, format v ≠ []
  format_chars : ∀ v c, c ∈ format v → fmtChar c = true

/-! ## Interpreter state -/

/-- The three process-wide variables: `stack`, `aliases`, and the function-local
`static std::string lastInput`. -/
structure State (α : Type) where
  stack : List α
  aliases : List (Str × Str)
  lastInput : Str
  deriving DecidableEq, Repr

/-- Source `enum ExecuteResult` (main.cpp 113-118). -/
inductive ExecuteResult
  | EXECUTED
  | ERR
  | END_ESCAPED
  | EXIT_REQUESTED
  deriving DecidableEq, Repr

/-- What a call of `execute` amounts to: it returns a status in a final state, or it performs
`pop_back()` on an empty deque (undefined behaviour), or the recursion budget of the embedding
is exhausted. -/
inductive Outcome (α : Type)
  | done (r : ExecuteResult) (st : State α)
  | invalidAccess
  | outOfFuel
  deriving DecidableEq, Repr

/-- The call `aliases.find(key)`: the body bound to `key`, if any. -/
def aliasFind (key : Str) : List (Str × Str) → Option Str
  | [] => none
  | (k, v) :: rest => if k = key then some v else aliasFind key rest

/-- The call `aliases.erase(key)`. -/
def aliasErase (key : Str) (m : List (Str × Str)) : List (Str × Str) :=
  m.filter (fun kv => kv.1 ≠ key)

/-- The statement `aliases[key] = value`: overwrite, or insert at the key-ordered position. -/
def aliasAssign (key value : Str) : List (Str × Str) → List (Str × Str)
  | [] => [(key, value)]
  | (k, v) :: rest =>
    if key = k then (key, value) :: rest
    else if key < k then (key, value) :: (k, v) :: rest
    else (k, v) :: aliasAssign key value rest

/-- Source `pop_back` (main.cpp 106-110): the top element and the remaining stack;
`none` when the deque is empty, where the source has undefined behaviour. -/
def pop_back {α : Type} (stack : List α) : Option (α × List α) :=
  match stack.getLast? with
  | some num => some (num, stack.dropLast)
  | none => none

/-- The macro `EXECUTE_SUBEXPRESSION(expr)` (main.cpp 121): continue only after `EXECUTED`,
return any other result at once. -/
def EXECUTE_SUBEXPRESSION {α : Type} (res : Outcome α) (k : State α → Outcome α) : Outcome α :=
  match res with
  | .done .EXECUTED st => k st
  | other => other

/-! ## `execute` (main.cpp 120-304)

The body is written over `exec`, the recursive call `execute(...)`. -/

section Body

variable {α : Type} (N : NumberT α) (exec : State α → Str → Outcome α)

/-- Label `err:` (main.cpp 296-301): retry once with the escape character prepended,
otherwise report `ERR`. -/
def err (st : State α) (input : Str) : Outcome α :=
  if front input ≠ '\\' then exec st ('\\' :: input)
  else .done .ERR st

/-- Two successive `pop_back()` calls guarded by `stack.size() < 2`: first popped value,
second popped value, remaining stack. -/
def pop2 (stack : List α) : Option (α × α × List α) :=
  match pop_back stack with
  | some (a, s1) =>
    match pop_back s1 with
    | some (b, s2) => some (a, b, s2)
    | none => none
  | none => none

/-- A branch `if (stack.size() < 2) NOT_ENOUGH_ARGS; stack.push_back(f(first, second))`. -/
def binary (st : State α) (input : Str) (f : α → α → α) : Outcome α :=
  if st.stack.length < 2 then err exec st input
  else
    match pop2 st.stack with
    | some (a, b, s) => .done .EXECUTED { st with stack := s ++ [f a b] }
    | none => .invalidAccess

/-- A branch `if (stack.empty()) NOT_ENOUGH_ARGS; stack.push_back(f(pop_back()))`. -/
def unary (st : State α) (input : Str) (f : α → α) : Outcome α :=
  if st.stack.isEmpty then err exec st input
  else
    match pop_back st.stack with
    | some (a, s) => .done .EXECUTED { st with stack := s ++ [f a] }
    | none => .invalidAccess

/-- The index that `[expr]` addresses for the popped value `reqIdx` on a stack of `size`
elements (main.cpp 248-251): `static_cast<size_t>(llroundl(reqIdx))`, plus `size` when
`reqIdx < 0`, in 64-bit unsigned arithmetic. -/
def derefIndex (reqIdx : α) (size : Nat) : Nat :=
  if N.ltZero reqIdx then ((N.llroundl reqIdx % (2 ^ 64 : Int)).toNat + size) % 2 ^ 64
  else (N.llroundl reqIdx % (2 ^ 64 : Int)).toNat

/-- The branch for `[expr]` (main.cpp 242-254). -/
def dereference (st : State α) (input : Str) : Outcome α :=
  EXECUTE_SUBEXPRESSION (exec st ((input.drop 1).take (input.length - 2))) fun st1 =>
    match pop_back st1.stack with
    | none => .invalidAccess
    | some (reqIdx, s) =>
      match s.get? (derefIndex N reqIdx s.length) with
      | none => err exec { st1 with stack := s } input
      | some x => .done .EXECUTED { st1 with stack := s ++ [x] }

/-- The `if / else if` chain of standard operations (main.cpp 207-287). -/
def commands (st : State α) (input : Str) : Outcome α :=
  if input = ['\\', 'e', 'x', 'i', 't'] then .done .EXIT_REQUESTED st
  else if input = ['+'] then
    binary exec st input (fun a b => if N.lhsFirst then N.add a b else N.add b a)
  else if input = ['-'] then
    binary exec st input (fun a b => if N.lhsFirst then N.sub a b else N.sub b a)
  else if input = ['*'] then
    binary exec st input (fun a b => if N.lhsFirst then N.mul a b else N.mul b a)
  else if input = ['/'] then
    binary exec st input (fun num2 b => N.div b num2)
  else if input = ['\\', 'p', 'o', 'w'] then
    binary exec st input (fun a b => if N.argFirst then N.powl a b else N.powl b a)
  else if input = ['1', '/'] then
    unary exec st input (fun a => N.div N.one a)
  else if input = ['\\', 'c', 'l', 'e', 'a', 'r'] then
    .done .EXECUTED { st with stack := [] }
  else if input = ['\\', 's', 'w', 'a', 'p'] then
    if st.stack.length < 2 then err exec st input
    else
      match pop_back st.stack with
      | some (val, s) =>
        .done .EXECUTED { st with stack := s.take (s.length - 1) ++ val :: s.drop (s.length - 1) }
      | none => .invalidAccess
  else if input = ['\\', 'r', 'o', 'l', 'l'] then
    if st.stack.length < 2 then err exec st input
    else
      match st.stack with
      | val :: s => .done .EXECUTED { st with stack := s ++ [val] }
      | [] => .invalidAccess
  else if input = ['\\', 'd', 'r', 'o', 'p'] then
    if st.stack.isEmpty then err exec st input
    else .done .EXECUTED { st with stack := st.stack.dropLast }
  else if front input = '[' ∧ back input = ']' then
    dereference N exec st input
  else if input = ['!', '!'] then
    if st.stack.isEmpty then err exec st input
    else
      match st.stack.getLast? with
      | some x => .done .EXECUTED { st with stack := st.stack ++ [x] }
      | none => .invalidAccess
  else if input = ['\\', 'a', 'l', 'i', 'a', 's', 'e', 's'] then
    .done .EXECUTED st
  else
    match UnaryFn.all.find? (fun f => decide (input = '\\' :: f.name)) with
    | some f => unary exec st input (N.unaryl f)
    | none =>
      match N.stold input with
      | none => err exec st input
      | some (num, numConvertedChars) =>
        if numConvertedChars ≠ input.length then err exec st input
        else .done .EXECUTED { st with stack := st.stack ++ [num] }

/-- The special case `[num] [+-*/] [num]` (main.cpp 177-200), falling through to `commands`
at the label `not_basic_arithmatic`. -/
def arithmetic (st : State α) (input : Str) : Outcome α :=
  match N.stold input with
  | none => commands N exec st input
  | some (num1, numConvertedChars1) =>
    if numConvertedChars1 = 0 ∨ numConvertedChars1 + 2 > input.length then
      commands N exec st input
    else
      match input.get? numConvertedChars1 with
      | none => commands N exec st input
      | some op =>
        if op = '+' ∨ op = '-' ∨ op = '*' ∨ op = '/' then
          match N.stold (input.drop (numConvertedChars1 + 1)) with
          | none => commands N exec st input
          | some (num2, numConvertedChars2) =>
            if numConvertedChars2 ≠ 0 then
              exec { st with stack := st.stack ++ [num1, num2] } [op]
            else commands N exec st input
        else commands N exec st input

/-- The branch `Add Alias ([key]=[value])` (main.cpp 138-165); `eqPos` is the position of the
first `=`. -/
def assign (st : State α) (input : Str) (eqPos : Nat) : Outcome α :=
  let name := input.take eqPos
  let value := input.drop (eqPos + 1)
  if value = [] then
    .done .EXECUTED { st with aliases := aliasErase name st.aliases }
  else if front value = '(' then
    match processParenthetical value '(' ')' with
    | none => err exec st input
    | some (value, rest) =>
      if rest ≠ [] ∧ front rest ≠ ';' then err exec st input
      else
        EXECUTE_SUBEXPRESSION (exec st (name ++ '=' :: value)) fun st1 =>
          if rest ≠ [] then exec st1 (rest.drop 1)
          else .done .EXECUTED st1
  else if front value = '{' then
    match processParenthetical value '{' '}' with
    | none => err exec st input
    | some (value, rest) =>
      if rest ≠ [] ∧ front rest ≠ ';' then err exec st input
      else
        EXECUTE_SUBEXPRESSION (exec st value) fun st1 =>
          match pop_back st1.stack with
          | none => err exec st1 input
          | some (num, s) =>
            EXECUTE_SUBEXPRESSION
              (exec { st1 with stack := s } (name ++ '=' :: N.format num)) fun st2 =>
                if rest ≠ [] then exec st2 (rest.drop 1)
                else .done .EXECUTED st2
  else
    .done .EXECUTED { st with aliases := aliasAssign name value st.aliases }

/-- Classification of a normalized, non-empty, complete line (main.cpp 137-287):
assignment, then alias reference, then statement separator, then the rest. -/
def classify (st : State α) (input : Str) : Outcome α :=
  match find '=' input with
  | some eqPos => assign N exec st input eqPos
  | none =>
    match aliasFind input st.aliases with
    | some body => exec st body
    | none =>
      match find ';' input with
      | some sepPos =>
        EXECUTE_SUBEXPRESSION (exec st (input.take sepPos)) fun st1 =>
          exec st1 (input.drop (sepPos + 1))
      | none => arithmetic N exec st input

/-- One activation of `execute` (main.cpp 123-135 followed by the classification): the pending
`lastInput` is moved out (left empty) and prepended, whitespace and the comment are removed. -/
def executeBody (st : State α) (line : Str) : Outcome α :=
  let input := eraseComment (eraseWhitespace (st.lastInput ++ line))
  let st0 : State α := { st with lastInput := [] }
  if input = [] then .done .EXECUTED st0
  else if back input = '\\' then
    .done .END_ESCAPED { st0 with lastInput := input.take (input.length - 1) }
  else classify N exec st0 input

end Body

/-- Source `execute`; the first argument bounds the depth of recursive calls. -/
def execute {α : Type} (N : NumberT α) : Nat → State α → Str → Outcome α
  | 0, _, _ => .outOfFuel
  | fuel + 1, st, input => executeBody N (execute N fuel) st input

/-- The call `execute(line)` in state `st` returns (or faults) with outcome `o`. -/
def Runs {α : Type} (N : NumberT α) (st : State α) (line : Str) (o : Outcome α) : Prop :=
  ∃ fuel, execute N fuel st line = o ∧ o ≠ .outOfFuel

/-! ## Auxiliary notions used by the statements -/

/-- The recursive call `e2` agrees with `e1` wherever `e1` has a result. -/
def Extends {α : Type} (e1 e2 : State α → Str → Outcome α) : Prop :=
  ∀ st input, e1 st input ≠ .outOfFuel → e2 st input = e1 st input

/-- Text on which normalization removes nothing: no whitespace and no `#`. -/
def Plain (s : Str) : Prop := ∀ c ∈ s, isspace c = false ∧ c ≠ '#'

instance Plain.decidable (s : Str) : Decidable (Plain s) := by
  unfold Plain
  infer_instance

/-- An integer literal: an optional minus sign followed by at least one decimal digit. -/
def isIntLiteral (lit : Str) : Bool :=
  if front lit = '-' then !(lit.drop 1).isEmpty && (lit.drop 1).all Char.isDigit
  else !lit.isEmpty && lit.all Char.isDigit

/-- The four binary operator characters. -/
def isOperator (op : Char) : Prop := op = '+' ∨ op = '-' ∨ op = '*' ∨ op = '/'

/-- Every `EXECUTED` result of the recursive call has an empty `lastInput`. -/
def NilBuf {α : Type} (exec : State α → Str → Outcome α) : Prop :=
  ∀ st input st1, exec st input = .done .EXECUTED st1 → st1.lastInput = []

/-- The state at program start. -/
def State.init {α : Type} : State α := ⟨[], [], []⟩

/-- The property of alias keys that every execution maintains: no `=` and no whitespace. -/
def KeyOK (k : Str) : Prop := '=' ∉ k ∧ ∀ c ∈ k, isspace c = false

/-- Every key of the alias table satisfies `KeyOK`. -/
def AliasInv (al : List (Str × Str)) : Prop := ∀ kv ∈ al, KeyOK kv.1

/-- The recursive call `exec` maintains the key property. -/
def KeepsKeys {α : Type} (exec : State α → Str → Outcome α) : Prop :=
  ∀ st input r st1, AliasInv st.aliases → exec st input = .done r st1 → AliasInv st1.aliases

/-- Submitting the lines of a list one after the other, each call returning some status,
leads from state `st` to state `st1`. -/
def RunsAll {α : Type} (N : NumberT α) : State α → List Str → State α → Prop
  | st, [], st1 => st1 = st
  | st, line :: rest, st1 => ∃ r st2, Runs N st line (.done r st2) ∧ RunsAll N st2 rest st1

/-- An outcome that is a result (not an exhausted budget) and, when a status is returned,
comes with an empty alias table. -/
def Settled {α : Type} (o : Outcome α) : Prop :=
  o ≠ .outOfFuel ∧ ∀ r st1, o = .done r st1 → st1.aliases = []

/-- The recursive call `exec` settles every line of at most `len` characters without `=`, when
started with an empty alias table and no pending continuation. -/
def Terminates {α : Type} (exec : State α → Str → Outcome α) (len : Nat) : Prop :=
  ∀ stack line, line.length ≤ len → '=' ∉ line → Settled (exec ⟨stack, [], []⟩ line)

/-! ## An executable instance of the numeric interface

Exact fractions `num / den` in lowest terms; `den = 0` encodes the non-finite values
(`1/0` is `inf`, `-1/0` is `-inf`, `0/0` is `nan`).  It coincides with `long double` on the
integers and short decimals used in the examples below.  `stold` reads decimal literals
(sign, digits, point, exponent); values of the `<cmath>` functions are not rational in
general and are reported as `nan`. -/

/-- An exact fraction; `den = 0` for `inf`, `-inf`, `nan`. -/
structure Frac where
  num : Int
  den : Nat
  deriving DecidableEq, Repr

namespace Frac

/-- Reduce to lowest terms. -/
def normalize (n : Int) (d : Nat) : Frac :=
  let g := Nat.gcd n.natAbs d
  ⟨n / (g : Int), d / g⟩

def ofInt (n : Int) : Frac := ⟨n, 1⟩

def nan : Frac := ⟨0, 0⟩

def add (a b : Frac) : Frac :=
  normalize (a.num * (b.den : Int) + b.num * (a.den : Int)) (a.den * b.den)

def neg (a : Frac) : Frac := ⟨-a.num, a.den⟩

def sub (a b : Frac) : Frac := add a (neg b)

def mul (a b : Frac) : Frac := normalize (a.num * b.num) (a.den * b.den)

def div (a b : Frac) : Frac :=
  if b.num = 0 then normalize (a.num * (b.den : Int)) 0
  else normalize (a.num * (b.den : Int) * Int.sign b.num) (a.den * b.num.natAbs)

/-- Integer powers by repeated multiplication; other exponents have no exact value. -/
def powl (a b : Frac) : Frac :=
  if b.den = 1 then
    if 0 ≤ b.num then (List.replicate b.num.toNat a).foldl mul (ofInt 1)
    else div (ofInt 1) ((List.replicate b.num.natAbs a).foldl mul (ofInt 1))
  else nan

/-- Round half away from zero, as `llroundl`. -/
def llroundl (a : Frac) : Int :=
  if a.den = 0 then 0
  else Int.sign a.num * (((2 * a.num.natAbs + a.den) / (2 * a.den) : Nat) : Int)

def ltZero (a : Frac) : Bool := decide (a.num < 0)

/-- The decimal digit `d` as a character. -/
def digitChar (d : Nat) : Char :=
  match d % 10 with
  | 0 => '0' | 1 => '1' | 2 => '2' | 3 => '3' | 4 => '4'
  | 5 => '5' | 6 => '6' | 7 => '7' | 8 => '8' | _ => '9'

/-- Decimal digits of `n`, most significant first, appended to `acc`. -/
def natDigits : Nat → Nat → Str → Str
  | 0, n, acc => digitChar n :: acc
  | fuel + 1, n, acc =>
    if n < 10 then digitChar n :: acc else natDigits fuel (n / 10) (digitChar n :: acc)

/-- Up to `k` fractional digits of `r / d` (with `r < d`), stopping at an exact end. -/
def fracDigits : Nat → Nat → Nat → Str
  | 0, _, _ => []
  | k + 1, r, d => if r = 0 then [] else digitChar (10 * r / d) :: fracDigits k (10 * r % d) d

def format (a : Frac) : Str :=
  if a.den = 0 then
    (if a.num < 0 then ['-', 'i', 'n', 'f'] else if a.num = 0 then ['n', 'a', 'n']
     else ['i', 'n', 'f'])
  else
    let m := a.num.natAbs
    let body := natDigits m (m / a.den) [] ++
      (if m % a.den = 0 then [] else '.' :: fracDigits 20 (m % a.den) a.den)
    if a.num < 0 then '-' :: body else body

/-- Value of a digit string read after the accumulator `acc`. -/
def digitsVal (acc : Nat) (ds : Str) : Nat :=
  ds.foldl (fun v c => 10 * v + (c.toNat - 48)) acc

/-- The digits at the start of a string. -/
def leadDigits (s : Str) : Str := s.takeWhile Char.isDigit

/-- The exponent part `e[sign]digits`: its value and the characters it occupies
(`(0, 0)` when absent or incomplete). -/
def readExponent (s : Str) : Int × Nat :=
  match s with
  | c :: t =>
    if c = 'e' ∨ c = 'E' then
      match t with
      | '-' :: u =>
        if leadDigits u = [] then (0, 0)
        else (-(digitsVal 0 (leadDigits u) : Int), 2 + (leadDigits u).length)
      | '+' :: u =>
        if leadDigits u = [] then (0, 0)
        else ((digitsVal 0 (leadDigits u) : Int), 2 + (leadDigits u).length)
      | _ =>
        if leadDigits t = [] then (0, 0)
        else ((digitsVal 0 (leadDigits t) : Int), 1 + (leadDigits t).length)
    else (0, 0)
  | [] => (0, 0)

/-- The value `mantissa * 10 ^ exponent` of a literal with integer digits `ip`, fraction
digits `fp` and the text `rest` after them; `used` characters were read before `rest`. -/
def finish (ip fp rest : Str) (used : Nat) : Frac × Nat :=
  let ex := readExponent rest
  let mant : Nat := digitsVal (digitsVal 0 ip) fp
  let e10 : Int := ex.1 - (fp.length : Int)
  let v := if 0 ≤ e10 then normalize ((mant * 10 ^ e10.toNat : Nat) : Int) 1
           else normalize (mant : Int) (10 ^ e10.natAbs)
  (v, used + ex.2)

/-- The unsigned part of a decimal literal: value and number of characters read;
`none` when there is no digit. -/
def readUnsigned (s : Str) : Option (Frac × Nat) :=
  if front (s.drop (leadDigits s).length) = '.' then
    if leadDigits s = [] ∧ leadDigits (s.drop ((leadDigits s).length + 1)) = [] then none
    else
      some (finish (leadDigits s) (leadDigits (s.drop ((leadDigits s).length + 1)))
        (s.drop ((leadDigits s).length + 1 +
          (leadDigits (s.drop ((leadDigits s).length + 1))).length))
        ((leadDigits s).length + 1 + (leadDigits (s.drop ((leadDigits s).length + 1))).length))
  else
    if leadDigits s = [] then none
    else some (finish (leadDigits s) [] (s.drop (leadDigits s).length) (leadDigits s).length)

/-- Decimal `std::stold`: optional sign, then the unsigned literal. -/
def stold (s : Str) : Option (Frac × Nat) :=
  match s with
  | '-' :: t => (readUnsigned t).map (fun r => (neg r.1, r.2 + 1))
  | '+' :: t => (readUnsigned t).map (fun r => (r.1, r.2 + 1))
  | _ => readUnsigned s

end Frac

/-- Numbers of the exact instance from integers, for examples. -/
def num (n : Int) : Frac := Frac.ofInt n

/-! ### The exact instance satisfies the laws of the interface -/

namespace Frac

theorem add_comm (a b : Frac) : add a b = add b a := by
  simp [add, Int.add_comm, Nat.mul_comm]

theorem mul_comm (a b : Frac) : mul a b = mul b a := by
  simp [mul, Int.mul_comm, Nat.mul_comm]

theorem leadDigits_length_le (s : Str) : (leadDigits s).length ≤ s.length := by
  unfold leadDigits
  induction s with
  | nil => simp
  | cons c t ih =>
    simp only [List.takeWhile]
    split <;> simp <;> omega

theorem readExponent_le (s : Str) : (readExponent s).2 ≤ s.length := by
  unfold readExponent
  split
  · rename_i c t
    split
    · split
      · rename_i u
        have := leadDigits_length_le u
        split <;> simp <;> omega
      · rename_i u
        have := leadDigits_length_le u
        split <;> simp <;> omega
      · have := leadDigits_length_le t
        split <;> simp <;> omega
    · simp
  · simp

theorem leadDigits_head (s : Str) (h : leadDigits s ≠ []) : (front s).isDigit = true := by
  cases s with
  | nil => simp [leadDigits] at h
  | cons c t =>
    by_cases hc : c.isDigit = true
    · simpa [front] using hc
    · simp [leadDigits, List.takeWhile, hc] at h

theorem readUnsigned_pos (s : Str) (v : Frac) (n : Nat) (h : readUnsigned s = some (v, n)) :
    0 < n ∧ n ≤ s.length := by
  unfold readUnsigned at h
  have hip := leadDigits_length_le s
  split at h
  · rename_i hdot
    have hlt : (leadDigits s).length < s.length := by
      by_contra hge
      have : s.drop (leadDigits s).length = [] := List.drop_eq_nil_of_le (by omega)
      rw [this] at hdot
      exact absurd hdot (by decide)
    split at h
    · exact absurd h (by simp)
    · have hfp := leadDigits_length_le (s.drop ((leadDigits s).length + 1))
      have hex := readExponent_le (s.drop ((leadDigits s).length + 1 +
          (leadDigits (s.drop ((leadDigits s).length + 1))).length))
      simp only [finish, Option.some.injEq, Prod.mk.injEq] at h
      simp only [List.length_drop] at hex hfp
      omega
  · split at h
    · exact absurd h (by simp)
    · rename_i hne
      have hex := readExponent_le (s.drop (leadDigits s).length)
      simp only [finish, Option.some.injEq, Prod.mk.injEq] at h
      have hpos : 0 < (leadDigits s).length := List.length_pos.mpr hne
      simp only [List.length_drop] at hex
      omega

theorem readUnsigned_head (s : Str) (v : Frac) (n : Nat) (h : readUnsigned s = some (v, n)) :
    (front s).isDigit = true ∨ front s = '.' := by
  unfold readUnsigned at h
  by_cases hip : leadDigits s = []
  · right
    simp only [hip, List.length_nil, List.drop_zero] at h
    split at h
    · assumption
    · simp at h
  · exact Or.inl (leadDigits_head s hip)

theorem stold_pos (s : Str) (v : Frac) (n : Nat) (h : stold s = some (v, n)) :
    0 < n ∧ n ≤ s.length := by
  unfold stold at h
  split at h
  · rename_i t
    cases hr : readUnsigned t with
    | none => simp [hr] at h
    | some r =>
      have := readUnsigned_pos t r.1 r.2 hr
      simp only [hr, Option.map_some', Option.some.injEq, Prod.mk.injEq] at h
      simp only [List.length_cons]
      omega
  · rename_i t
    cases hr : readUnsigned t with
    | none => simp [hr] at h
    | some r =>
      have := readUnsigned_pos t r.1 r.2 hr
      simp only [hr, Option.map_some', Option.some.injEq, Prod.mk.injEq] at h
      simp only [List.length_cons]
      omega
  · exact readUnsigned_pos s v n h

theorem stold_head (s : Str) (v : Frac) (n : Nat) (h : stold s = some (v, n)) :
    numStart (front s) = true := by
  unfold stold at h
  split at h
  · simp [front, numStart]
  · simp [front, numStart]
  · rcases readUnsigned_head s v n h with hd | hd
    · simp [numStart, hd]
    · simp [numStart, hd]

theorem digitChar_fmt (d : Nat) : fmtChar (digitChar d) = true := by
  unfold digitChar
  split <;> decide

theorem natDigits_chars (fuel n : Nat) (acc : Str) (hacc : ∀ c ∈ acc, fmtChar c = true) :
    ∀ c ∈ natDigits fuel n acc, fmtChar c = true := by
  induction fuel generalizing n acc with
  | zero =>
    intro c hc
    simp only [natDigits, List.mem_cons] at hc
    rcases hc with rfl | hc
    · exact digitChar_fmt n
    · exact hacc c hc
  | succ k ih =>
    intro c hc
    simp only [natDigits] at hc
    split at hc
    · simp only [List.mem_cons] at hc
      rcases hc with rfl | hc
      · exact digitChar_fmt n
      · exact hacc c hc
    · refine ih (n / 10) (digitChar n :: acc) ?_ c hc
      intro x hx
      simp only [List.mem_cons] at hx
      rcases hx with rfl | hx
      · exact digitChar_fmt n
      · exact hacc x hx

theorem natDigits_ne_nil (fuel n : Nat) (acc : Str) : natDigits fuel n acc ≠ [] := by
  induction fuel generalizing n acc with
  | zero => simp [natDigits]
  | succ k ih =>
    simp only [natDigits]
    split
    · simp
    · exact ih _ _

theorem fracDigits_chars (k r d : Nat) : ∀ c ∈ fracDigits k r d, fmtChar c = true := by
  induction k generalizing r with
  | zero => simp [fracDigits]
  | succ k ih =>
    intro c hc
    simp only [fracDigits] at hc
    split at hc
    · simp at hc
    · simp only [List.mem_cons] at hc
      rcases hc with rfl | hc
      · exact digitChar_fmt _
      · exact ih _ c hc

theorem format_ne_nil (a : Frac) : format a ≠ [] := by
  unfold format
  split
  · split
    · simp
    · split <;> simp
  · have := natDigits_ne_nil a.num.natAbs (a.num.natAbs / a.den) []
    simp only
    split
    · simp
    · simp [this]

theorem format_chars (a : Frac) (c : Char) (h : c ∈ format a) : fmtChar c = true := by
  unfold format at h
  have hbody : ∀ x ∈ natDigits a.num.natAbs (a.num.natAbs / a.den) [] ++
      (if a.num.natAbs % a.den = 0 then [] else
        '.' :: fracDigits 20 (a.num.natAbs % a.den) a.den), fmtChar x = true := by
    intro x hx
    rcases List.mem_append.mp hx with hx | hx
    · exact natDigits_chars _ _ [] (by simp) x hx
    · split at hx
      · simp at hx
      · simp only [List.mem_cons] at hx
        rcases hx with rfl | hx
        · decide
        · exact fracDigits_chars _ _ _ x hx
  split at h
  · split at h
    · simp only [List.mem_cons, List.mem_singleton] at h
      rcases h with rfl | rfl | rfl | rfl | h <;> first | decide | simp at h
    · split at h
      · simp only [List.mem_cons, List.mem_singleton] at h
        rcases h with rfl | rfl | rfl | h <;> first | decide | simp at h
      · simp only [List.mem_cons, List.mem_singleton] at h
        rcases h with rfl | rfl | rfl | h <;> first | decide | simp at h
  · simp only at h
    split at h
    · simp only [List.mem_cons] at h
      rcases h with rfl | h
      · decide
      · exact hbody c h
    · exact hbody c h

end Frac

/-- The exact-fraction instance of the numeric interface; operands are evaluated left to
right. -/
def exact : NumberT Frac where
  stold := Frac.stold
  format := Frac.format
  add := Frac.add
  sub := Frac.sub
  mul := Frac.mul
  div := Frac.div
  powl := Frac.powl
  one := Frac.ofInt 1
  unaryl := fun _ _ => Frac.nan
  llroundl := Frac.llroundl
  ltZero := Frac.ltZero
  lhsFirst := true
  argFirst := true
  add_comm := Frac.add_comm
  mul_comm := Frac.mul_comm
  stold_pos := Frac.stold_pos
  stold_head := Frac.stold_head
  format_ne_nil := Frac.format_ne_nil
  format_chars := Frac.format_chars


/-! ## Fuel: more budget never changes a result -/

section Mono

variable {α : Type}

theorem EXECUTE_SUBEXPRESSION_mono {r1 r2 : Outcome α} {k1 k2 : State α → Outcome α}
    (hr : r1 ≠ .outOfFuel → r2 = r1) (hk : ∀ st, k1 st ≠ .outOfFuel → k2 st = k1 st)
    (h : EXECUTE_SUBEXPRESSION r1 k1 ≠ .outOfFuel) :
    EXECUTE_SUBEXPRESSION r2 k2 = EXECUTE_SUBEXPRESSION r1 k1 := by
  cases r1 with
  | done r st =>
    rw [hr (by simp)]
    cases r <;> simp only [EXECUTE_SUBEXPRESSION] at h ⊢
    exact hk st h
  | invalidAccess => rw [hr (by simp)]; rfl
  | outOfFuel => exact absurd rfl h

theorem err_mono {e1 e2 : State α → Str → Outcome α} (he : Extends e1 e2) (st : State α)
    (input : Str) (h : err e1 st input ≠ .outOfFuel) : err e2 st input = err e1 st input := by
  unfold err at h ⊢
  split
  · rename_i hc
    rw [if_pos hc] at h
    exact he _ _ h
  · rfl

theorem binary_mono {e1 e2 : State α → Str → Outcome α} (he : Extends e1 e2) (st : State α)
    (input : Str) (f : α → α → α) (h : binary e1 st input f ≠ .outOfFuel) :
    binary e2 st input f = binary e1 st input f := by
  unfold binary at h ⊢
  split
  · rename_i hc
    rw [if_pos hc] at h
    exact err_mono he _ _ h
  · rfl

theorem unary_mono {e1 e2 : State α → Str → Outcome α} (he : Extends e1 e2) (st : State α)
    (input : Str) (f : α → α) (h : unary e1 st input f ≠ .outOfFuel) :
    unary e2 st input f = unary e1 st input f := by
  unfold unary at h ⊢
  split
  · rename_i hc
    rw [if_pos hc] at h
    exact err_mono he _ _ h
  · rfl

theorem dereference_mono (N : NumberT α) {e1 e2 : State α → Str → Outcome α}
    (he : Extends e1 e2) (st : State α) (input : Str)
    (h : dereference N e1 st input ≠ .outOfFuel) :
    dereference N e2 st input = dereference N e1 st input := by
  unfold dereference at h ⊢
  refine EXECUTE_SUBEXPRESSION_mono (he _ _) ?_ h
  intro st1 h1
  cases hp : pop_back st1.stack with
  | none => rfl
  | some p =>
    simp only [hp] at h1 ⊢
    split
    · rename_i hg
      simp only [hg] at h1
      exact err_mono he _ _ h1
    · rfl

theorem commands_mono (N : NumberT α) {e1 e2 : State α → Str → Outcome α}
    (he : Extends e1 e2) (st : State α) (input : Str)
    (h : commands N e1 st input ≠ .outOfFuel) :
    commands N e2 st input = commands N e1 st input := by
  unfold commands at h ⊢
  by_cases c0 : input = ['\\', 'e', 'x', 'i', 't']
  · simp only [if_pos c0]
  simp only [if_neg c0] at h ⊢
  by_cases c1 : input = ['+']
  · simp only [if_pos c1] at h ⊢
    exact binary_mono he _ _ _ h
  simp only [if_neg c1] at h ⊢
  by_cases c2 : input = ['-']
  · simp only [if_pos c2] at h ⊢
    exact binary_mono he _ _ _ h
  simp only [if_neg c2] at h ⊢
  by_cases c3 : input = ['*']
  · simp only [if_pos c3] at h ⊢
    exact binary_mono he _ _ _ h
  simp only [if_neg c3] at h ⊢
  by_cases c4 : input = ['/']
  · simp only [if_pos c4] at h ⊢
    exact binary_mono he _ _ _ h
  simp only [if_neg c4] at h ⊢
  by_cases c5 : input = ['\\', 'p', 'o', 'w']
  · simp only [if_pos c5] at h ⊢
    exact binary_mono he _ _ _ h
  simp only [if_neg c5] at h ⊢
  by_cases c6 : input = ['1', '/']
  · simp only [if_pos c6] at h ⊢
    exact unary_mono he _ _ _ h
  simp only [if_neg c6] at h ⊢
  by_cases c7 : input = ['\\', 'c', 'l', 'e', 'a', 'r']
  · simp only [if_pos c7]
  simp only [if_neg c7] at h ⊢
  by_cases c8 : input = ['\\', 's', 'w', 'a', 'p']
  · simp only [if_pos c8] at h ⊢
    by_cases g : st.stack.length < 2
    · simp only [if_pos g] at h ⊢
      exact err_mono he _ _ h
    · simp only [if_neg g]
  simp only [if_neg c8] at h ⊢
  by_cases c9 : input = ['\\', 'r', 'o', 'l', 'l']
  · simp only [if_pos c9] at h ⊢
    by_cases g : st.stack.length < 2
    · simp only [if_pos g] at h ⊢
      exact err_mono he _ _ h
    · simp only [if_neg g]
  simp only [if_neg c9] at h ⊢
  by_cases c10 : input = ['\\', 'd', 'r', 'o', 'p']
  · simp only [if_pos c10] at h ⊢
    by_cases g : st.stack.isEmpty = true
    · simp only [if_pos g] at h ⊢
      exact err_mono he _ _ h
    · simp only [if_neg g]
  simp only [if_neg c10] at h ⊢
  by_cases c11 : front input = '[' ∧ back input = ']'
  · simp only [if_pos c11] at h ⊢
    exact dereference_mono N he _ _ h
  simp only [if_neg c11] at h ⊢
  by_cases c12 : input = ['!', '!']
  · simp only [if_pos c12] at h ⊢
    by_cases g : st.stack.isEmpty = true
    · simp only [if_pos g] at h ⊢
      exact err_mono he _ _ h
    · simp only [if_neg g]
  simp only [if_neg c12] at h ⊢
  by_cases c13 : input = ['\\', 'a', 'l', 'i', 'a', 's', 'e', 's']
  · simp only [if_pos c13]
  simp only [if_neg c13] at h ⊢
  cases hf : List.find? (fun f => decide (input = '\\' :: f.name)) UnaryFn.all with
  | some f =>
    simp only [hf] at h ⊢
    exact unary_mono he _ _ _ h
  | none =>
    simp only [hf] at h ⊢
    cases hs : N.stold input with
    | none =>
      simp only [hs] at h ⊢
      exact err_mono he _ _ h
    | some p =>
      simp only [hs] at h ⊢
      by_cases g : p.2 ≠ input.length
      · simp only [if_pos g] at h ⊢
        exact err_mono he _ _ h
      · simp only [if_neg g]

theorem arithmetic_mono (N : NumberT α) {e1 e2 : State α → Str → Outcome α}
    (he : Extends e1 e2) (st : State α) (input : Str)
    (h : arithmetic N e1 st input ≠ .outOfFuel) :
    arithmetic N e2 st input = arithmetic N e1 st input := by
  unfold arithmetic at h ⊢
  cases hs : N.stold input with
  | none =>
    simp only [hs] at h ⊢
    exact commands_mono N he _ _ h
  | some p =>
    simp only [hs] at h ⊢
    by_cases c0 : p.2 = 0 ∨ p.2 + 2 > input.length
    · simp only [if_pos c0] at h ⊢
      exact commands_mono N he _ _ h
    simp only [if_neg c0] at h ⊢
    cases hg : input.get? p.2 with
    | none =>
      simp only [hg] at h ⊢
      exact commands_mono N he _ _ h
    | some op =>
      simp only [hg] at h ⊢
      by_cases c1 : op = '+' ∨ op = '-' ∨ op = '*' ∨ op = '/'
      · simp only [if_pos c1] at h ⊢
        cases hs2 : N.stold (input.drop (p.2 + 1)) with
        | none =>
          simp only [hs2] at h ⊢
          exact commands_mono N he _ _ h
        | some q =>
          simp only [hs2] at h ⊢
          by_cases c2 : q.2 ≠ 0
          · simp only [if_pos c2] at h ⊢
            exact he _ _ h
          · simp only [if_neg c2] at h ⊢
            exact commands_mono N he _ _ h
      · simp only [if_neg c1] at h ⊢
        exact commands_mono N he _ _ h

theorem assign_mono (N : NumberT α) {e1 e2 : State α → Str → Outcome α}
    (he : Extends e1 e2) (st : State α) (input : Str) (eqPos : Nat)
    (h : assign N e1 st input eqPos ≠ .outOfFuel) :
    assign N e2 st input eqPos = assign N e1 st input eqPos := by
  unfold assign at h ⊢
  simp only at h ⊢
  by_cases c0 : input.drop (eqPos + 1) = []
  · simp only [if_pos c0]
  simp only [if_neg c0] at h ⊢
  by_cases c1 : front (input.drop (eqPos + 1)) = '('
  · simp only [if_pos c1] at h ⊢
    cases hp : processParenthetical (input.drop (eqPos + 1)) '(' ')' with
    | none =>
      simp only [hp] at h ⊢
      exact err_mono he _ _ h
    | some p =>
      simp only [hp] at h ⊢
      by_cases c2 : p.2 ≠ [] ∧ front p.2 ≠ ';'
      · simp only [if_pos c2] at h ⊢
        exact err_mono he _ _ h
      · simp only [if_neg c2] at h ⊢
        refine EXECUTE_SUBEXPRESSION_mono (he _ _) ?_ h
        intro st1 h1
        by_cases c3 : p.2 ≠ []
        · simp only [if_pos c3] at h1 ⊢
          exact he _ _ h1
        · simp only [if_neg c3]
  simp only [if_neg c1] at h ⊢
  by_cases c4 : front (input.drop (eqPos + 1)) = '{'
  · simp only [if_pos c4] at h ⊢
    cases hp : processParenthetical (input.drop (eqPos + 1)) '{' '}' with
    | none =>
      simp only [hp] at h ⊢
      exact err_mono he _ _ h
    | some p =>
      simp only [hp] at h ⊢
      by_cases c2 : p.2 ≠ [] ∧ front p.2 ≠ ';'
      · simp only [if_pos c2] at h ⊢
        exact err_mono he _ _ h
      · simp only [if_neg c2] at h ⊢
        refine EXECUTE_SUBEXPRESSION_mono (he _ _) ?_ h
        intro st1 h1
        cases hb : pop_back st1.stack with
        | none =>
          simp only [hb] at h1 ⊢
          exact err_mono he _ _ h1
        | some q =>
          simp only [hb] at h1 ⊢
          refine EXECUTE_SUBEXPRESSION_mono (he _ _) ?_ h1
          intro st2 h2
          by_cases c3 : p.2 ≠ []
          · simp only [if_pos c3] at h2 ⊢
            exact he _ _ h2
          · simp only [if_neg c3]
  · simp only [if_neg c4]

theorem classify_mono (N : NumberT α) {e1 e2 : State α → Str → Outcome α}
    (he : Extends e1 e2) (st : State α) (input : Str)
    (h : classify N e1 st input ≠ .outOfFuel) :
    classify N e2 st input = classify N e1 st input := by
  unfold classify at h ⊢
  cases h1 : find '=' input with
  | some eqPos =>
    simp only [h1] at h ⊢
    exact assign_mono N he _ _ _ h
  | none =>
    simp only [h1] at h ⊢
    cases h2 : aliasFind input st.aliases with
    | some body =>
      simp only [h2] at h ⊢
      exact he _ _ h
    | none =>
      simp only [h2] at h ⊢
      cases h3 : find ';' input with
      | some sepPos =>
        simp only [h3] at h ⊢
        exact EXECUTE_SUBEXPRESSION_mono (he _ _) (fun st1 => he _ _) h
      | none =>
        simp only [h3] at h ⊢
        exact arithmetic_mono N he _ _ h

theorem executeBody_mono (N : NumberT α) {e1 e2 : State α → Str → Outcome α}
    (he : Extends e1 e2) (st : State α) (line : Str)
    (h : executeBody N e1 st line ≠ .outOfFuel) :
    executeBody N e2 st line = executeBody N e1 st line := by
  unfold executeBody at h ⊢
  simp only at h ⊢
  by_cases c0 : eraseComment (eraseWhitespace (st.lastInput ++ line)) = []
  · simp only [if_pos c0]
  simp only [if_neg c0] at h ⊢
  by_cases c1 : back (eraseComment (eraseWhitespace (st.lastInput ++ line))) = '\\'
  · simp only [if_pos c1]
  simp only [if_neg c1] at h ⊢
  exact classify_mono N he _ _ h

/-- A result obtained with some fuel is obtained with any larger fuel. -/
theorem execute_mono (N : NumberT α) (n : Nat) :
    ∀ (m : Nat) (st : State α) (line : Str), n ≤ m → execute N n st line ≠ .outOfFuel →
      execute N m st line = execute N n st line := by
  induction n with
  | zero => intro m st line _ h; exact absurd rfl h
  | succ n ih =>
    intro m st line hm h
    cases m with
    | zero => omega
    | succ m =>
      have he : Extends (execute N n) (execute N m) :=
        fun st i hi => ih m st i (by omega) hi
      exact executeBody_mono N he st line h

theorem Runs.mono {N : NumberT α} {st : State α} {line : Str} {o : Outcome α}
    (h : Runs N st line o) : ∃ n, ∀ m, n ≤ m → execute N m st line = o := by
  obtain ⟨n, hn, ho⟩ := h
  refine ⟨n, fun m hm => ?_⟩
  rw [execute_mono N n m st line hm (by rw [hn]; exact ho), hn]

/-- A call has at most one outcome. -/
theorem Runs.unique {N : NumberT α} {st : State α} {line : Str} {o1 o2 : Outcome α}
    (h1 : Runs N st line o1) (h2 : Runs N st line o2) : o1 = o2 := by
  obtain ⟨n1, hn1⟩ := h1.mono
  obtain ⟨n2, hn2⟩ := h2.mono
  rw [← hn1 (max n1 n2) (le_max_left _ _), ← hn2 (max n1 n2) (le_max_right _ _)]

/-- A call whose body has the result `o` whatever the recursive calls do. -/
theorem Runs.of_body {N : NumberT α} {st : State α} {line : Str} {o : Outcome α}
    (ho : o ≠ .outOfFuel) (h : ∀ exec, executeBody N exec st line = o) : Runs N st line o :=
  ⟨1, h _, ho⟩

end Mono

/-! ## Normalization and classification of plain text -/

section Prep

variable {α : Type}

theorem find_eq_none {c : Char} {s : Str} (h : c ∉ s) : find c s = none := by
  induction s with
  | nil => rfl
  | cons x xs ih =>
    simp only [List.mem_cons, not_or] at h
    simp only [find, if_neg (Ne.symm h.1), ih h.2, Option.map_none']

theorem find_append {c : Char} {a : Str} (b : Str) (h : c ∉ a) :
    find c (a ++ c :: b) = some a.length := by
  induction a with
  | nil => simp [find]
  | cons x xs ih =>
    simp only [List.mem_cons, not_or] at h
    have e : find c (x :: (xs ++ c :: b)) = (find c (xs ++ c :: b)).map (· + 1) := by
      simp only [find, if_neg (Ne.symm h.1)]
    rw [List.cons_append, e, ih h.2]
    rfl

theorem find_some_mem {c : Char} {s : Str} {i : Nat} (h : find c s = some i) : c ∈ s := by
  by_contra hc
  rw [find_eq_none hc] at h
  exact absurd h (by simp)

theorem eraseWhitespace_plain {s : Str} (h : Plain s) : eraseWhitespace s = s := by
  unfold eraseWhitespace
  rw [List.filter_eq_self]
  intro c hc
  simp [(h c hc).1]

theorem eraseComment_plain {s : Str} (h : Plain s) : eraseComment s = s := by
  unfold eraseComment
  rw [find_eq_none (fun hm => (h _ hm).2 rfl)]

theorem Plain.append {a b : Str} (ha : Plain a) (hb : Plain b) : Plain (a ++ b) := by
  intro c hc
  rcases List.mem_append.mp hc with h | h
  · exact ha c h
  · exact hb c h

theorem Plain.cons {c : Char} {s : Str} (hc : isspace c = false ∧ c ≠ '#') (hs : Plain s) :
    Plain (c :: s) := by
  intro x hx
  rcases List.mem_cons.mp hx with h | h
  · exact h ▸ hc
  · exact hs x h

theorem Plain.right {a b : Str} (h : Plain (a ++ b)) : Plain b :=
  fun c hc => h c (List.mem_append_right _ hc)

/-- On plain, non-empty text that does not end in the continuation marker, with no pending
continuation, one activation of `execute` is the classification of the text itself. -/
theorem executeBody_plain (N : NumberT α) (exec : State α → Str → Outcome α)
    (stack : List α) (al : List (Str × Str)) {line : Str}
    (hp : Plain line) (hne : line ≠ []) (hb : back line ≠ '\\') :
    executeBody N exec ⟨stack, al, []⟩ line = classify N exec ⟨stack, al, []⟩ line := by
  unfold executeBody
  simp only [List.nil_append, eraseWhitespace_plain hp, eraseComment_plain hp, if_neg hne,
    if_neg hb]

/-- The arithmetic shorthand needs at least three characters. -/
theorem arithmetic_short (N : NumberT α) (exec : State α → Str → Outcome α) (st : State α)
    {input : Str} (h : input.length ≤ 2) :
    arithmetic N exec st input = commands N exec st input := by
  unfold arithmetic
  cases hs : N.stold input with
  | none => rfl
  | some p =>
    have := N.stold_pos input p.1 p.2 hs
    have c0 : p.2 = 0 ∨ p.2 + 2 > input.length := Or.inr (by omega)
    simp only [if_pos c0]

theorem pop_back_append (s : List α) (a : α) : pop_back (s ++ [a]) = some (a, s) := by
  simp [pop_back]

theorem pop2_append (s : List α) (a b : α) : pop2 (s ++ [b, a]) = some (a, b, s) := by
  have h : s ++ [b, a] = (s ++ [b]) ++ [a] := by simp
  simp only [pop2, h, pop_back_append]

/-- Text that begins with the escape character is not a number. -/
theorem stold_escape (N : NumberT α) (t : Str) : N.stold ('\\' :: t) = none := by
  cases hs : N.stold ('\\' :: t) with
  | none => rfl
  | some p =>
    have := N.stold_head _ p.1 p.2 hs
    simp [front, numStart, isspace] at this

theorem back_append {u v : Str} (hv : v ≠ []) : back (u ++ v) = back v := by
  simp only [back, List.getLastD_eq_getLast?, List.getLast?_append_of_ne_nil u hv]

theorem back_cons {c : Char} {v : Str} (hv : v ≠ []) : back (c :: v) = back v :=
  back_append (u := [c]) hv

/-- Text without `=`, without `;` and not naming an alias is classified by the arithmetic
shorthand and the command chain. -/
theorem classify_simple (N : NumberT α) (exec : State α → Str → Outcome α) (st : State α)
    {input : Str} (h1 : '=' ∉ input) (h2 : aliasFind input st.aliases = none)
    (h3 : ';' ∉ input) : classify N exec st input = arithmetic N exec st input := by
  simp only [classify, find_eq_none h1, h2, find_eq_none h3]

/-- Text that begins with the escape character never is the arithmetic shorthand. -/
theorem arithmetic_escape (N : NumberT α) (exec : State α → Str → Outcome α) (st : State α)
    (t : Str) : arithmetic N exec st ('\\' :: t) = commands N exec st ('\\' :: t) := by
  simp only [arithmetic, stold_escape N t]

end Prep

/-! ## Claims

Every statement below is about a call made with no pending continuation (`lastInput = []`), so
that the line executed is the line given; "normalized" text is `Plain` text (no whitespace, no
`#`).  `Runs N st line o` says that the call returns `o` for some recursion budget, and then
for every larger one (`Runs.mono`), and that `o` is its only outcome (`Runs.unique`). -/

section Claims

variable {α : Type}

theorem body_plus (N : NumberT α) (exec : State α → Str → Outcome α) (s : List α) (a b : α)
    (al : List (Str × Str)) (hal : aliasFind ['+'] al = none) :
    executeBody N exec ⟨s ++ [b, a], al, []⟩ ['+'] =
      .done .EXECUTED ⟨s ++ [N.add b a], al, []⟩ := by
  rw [executeBody_plain N exec _ _ (by decide) (by simp) (by decide)]
  have hf1 : find '=' ['+'] = none := by decide
  have hf2 : find ';' ['+'] = none := by decide
  simp only [classify, hf1, hf2, hal]
  rw [arithmetic_short N exec _ (by simp)]
  simp [commands, binary, pop2_append]
  intro _
  exact N.add_comm a b

theorem body_div (N : NumberT α) (exec : State α → Str → Outcome α) (s : List α) (a b : α)
    (al : List (Str × Str)) (hal : aliasFind ['/'] al = none) :
    executeBody N exec ⟨s ++ [b, a], al, []⟩ ['/'] =
      .done .EXECUTED ⟨s ++ [N.div b a], al, []⟩ := by
  rw [executeBody_plain N exec _ _ (by decide) (by simp) (by decide)]
  have hf1 : find '=' ['/'] = none := by decide
  have hf2 : find ';' ['/'] = none := by decide
  simp only [classify, hf1, hf2, hal]
  rw [arithmetic_short N exec _ (by simp)]
  simp [commands, binary, pop2_append]

/-- An operator on a stack with fewer than two values goes to the escape retry. -/
theorem body_operator_underflow (N : NumberT α) (exec : State α → Str → Outcome α)
    (stack : List α) (al : List (Str × Str)) (op : Char) (hop : isOperator op)
    (hlen : stack.length < 2) (hal : aliasFind [op] al = none) :
    executeBody N exec ⟨stack, al, []⟩ [op] = exec ⟨stack, al, []⟩ ['\\', op] := by
  rcases hop with rfl | rfl | rfl | rfl
  all_goals
    rw [executeBody_plain N exec _ _ (by decide) (by simp) (by decide)]
    simp only [classify, hal]
    rw [show find '=' _ = none from by decide, show find ';' _ = none from by decide]
    simp only []
    rw [arithmetic_short N exec _ (by simp)]
    simp [commands, binary, hlen, err, front]

/-- An escaped operator is no command and no number: the error is reported at once. -/
theorem body_escaped_operator (N : NumberT α) (exec : State α → Str → Outcome α)
    (stack : List α) (al : List (Str × Str)) (op : Char) (hop : isOperator op)
    (hal : aliasFind ['\\', op] al = none) :
    executeBody N exec ⟨stack, al, []⟩ ['\\', op] = .done .ERR ⟨stack, al, []⟩ := by
  have hst := stold_escape N [op]
  rcases hop with rfl | rfl | rfl | rfl
  all_goals
    rw [executeBody_plain N exec _ _ (by decide) (by simp) (by decide)]
    simp only [classify, hal]
    rw [show find '=' _ = none from by decide, show find ';' _ = none from by decide]
    simp only []
    rw [arithmetic_short N exec _ (by simp)]
    simp [commands, hst, err, front, back, UnaryFn.all, UnaryFn.name]

/-- C1: a binary operator pops the top two values and pushes one result with fixed operand
roles.  On every stack `s ++ [b, a]` (a on top), with no alias named by the operator, `+`
returns success and leaves `s ++ [b + a]`, and `/` returns success and leaves `s ++ [b / a]`;
the values of `s` stay.  From the empty state the line `3;4;+` leaves exactly `[7]`. -/
theorem C1_binary_operators (N : NumberT α) (s : List α) (a b : α) (al : List (Str × Str)) :
    (aliasFind ['+'] al = none →
      Runs N ⟨s ++ [b, a], al, []⟩ ['+'] (.done .EXECUTED ⟨s ++ [N.add b a], al, []⟩)) ∧
    (aliasFind ['/'] al = none →
      Runs N ⟨s ++ [b, a], al, []⟩ ['/'] (.done .EXECUTED ⟨s ++ [N.div b a], al, []⟩)) ∧
    Runs exact State.init "3;4;+".toList (.done .EXECUTED ⟨[num 7], [], []⟩) :=
  ⟨fun h => Runs.of_body (by simp) (fun exec => body_plus N exec s a b al h),
   fun h => Runs.of_body (by simp) (fun exec => body_div N exec s a b al h),
   ⟨4, by decide, by simp⟩⟩

/-- Witness for C1: on the stack `[1, 6, 3]` with an alias table that binds only `x`,
`/` leaves `[1, 2]` and `+` leaves `[1, 9]`. -/
theorem C1_binary_operators_witness :
    Runs exact ⟨[num 1, num 6, num 3], [(['x'], ['1'])], []⟩ ['/']
        (.done .EXECUTED ⟨[num 1, num 2], [(['x'], ['1'])], []⟩) ∧
      Runs exact ⟨[num 1, num 6, num 3], [(['x'], ['1'])], []⟩ ['+']
        (.done .EXECUTED ⟨[num 1, num 9], [(['x'], ['1'])], []⟩) :=
  ⟨(C1_binary_operators exact [num 1] (num 3) (num 6) [(['x'], ['1'])]).2.1 (by decide),
   (C1_binary_operators exact [num 1] (num 3) (num 6) [(['x'], ['1'])]).1 (by decide)⟩

/-- C8: a failing operator is atomic.  On a stack with fewer than two values, with no alias
named by the operator or by the escaped operator, each of `+ - * /` returns the error status
and leaves stack and alias table as they were; the call on the bare operator hands over to
exactly one retry on the escaped operator, which reports the error itself. -/
theorem C8_failing_operator_atomic (N : NumberT α) (stack : List α) (al : List (Str × Str))
    (op : Char) (hop : isOperator op) (hlen : stack.length < 2)
    (hal : aliasFind [op] al = none) (hesc : aliasFind ['\\', op] al = none) :
    Runs N ⟨stack, al, []⟩ [op] (.done .ERR ⟨stack, al, []⟩) ∧
    (∀ fuel, execute N (fuel + 1) ⟨stack, al, []⟩ [op] =
      execute N fuel ⟨stack, al, []⟩ ['\\', op]) ∧
    (∀ fuel, execute N (fuel + 1) ⟨stack, al, []⟩ ['\\', op] = .done .ERR ⟨stack, al, []⟩) := by
  have h1 : ∀ fuel, execute N (fuel + 1) ⟨stack, al, []⟩ [op] =
      execute N fuel ⟨stack, al, []⟩ ['\\', op] :=
    fun fuel => body_operator_underflow N (execute N fuel) stack al op hop hlen hal
  have h2 : ∀ fuel, execute N (fuel + 1) ⟨stack, al, []⟩ ['\\', op] =
      .done .ERR ⟨stack, al, []⟩ :=
    fun fuel => body_escaped_operator N (execute N fuel) stack al op hop hesc
  exact ⟨⟨2, by rw [h1, h2], by simp⟩, h1, h2⟩

/-- Witness for C8: `+` on the empty stack with the empty alias table. -/
theorem C8_failing_operator_atomic_witness :
    Runs exact ⟨[], [], []⟩ ['+'] (.done .ERR ⟨[], [], []⟩) :=
  (C8_failing_operator_atomic exact [] [] '+' (Or.inl rfl) (by decide) (by decide)
    (by decide)).1

theorem body_swap (N : NumberT α) (exec : State α → Str → Outcome α) (s : List α) (a b : α)
    (al : List (Str × Str)) (hal : aliasFind ['\\', 's', 'w', 'a', 'p'] al = none) :
    executeBody N exec ⟨s ++ [b, a], al, []⟩ ['\\', 's', 'w', 'a', 'p'] =
      .done .EXECUTED ⟨s ++ [a, b], al, []⟩ := by
  rw [executeBody_plain N exec _ _ (by decide) (by simp) (by decide),
    classify_simple N exec _ (by decide) hal (by decide), arithmetic_escape]
  have hp : pop_back (s ++ [b, a]) = some (a, s ++ [b]) := by
    have h : s ++ [b, a] = (s ++ [b]) ++ [a] := by simp
    rw [h, pop_back_append]
  simp [commands, hp]

theorem body_roll (N : NumberT α) (exec : State α → Str → Outcome α) (x : α) (r : List α)
    (al : List (Str × Str)) (hr : r ≠ [])
    (hal : aliasFind ['\\', 'r', 'o', 'l', 'l'] al = none) :
    executeBody N exec ⟨x :: r, al, []⟩ ['\\', 'r', 'o', 'l', 'l'] =
      .done .EXECUTED ⟨r ++ [x], al, []⟩ := by
  rw [executeBody_plain N exec _ _ (by decide) (by simp) (by decide),
    classify_simple N exec _ (by decide) hal (by decide), arithmetic_escape]
  have hlen : ¬ (r.length + 1 < 2) := by
    have := List.length_pos.mpr hr
    omega
  simp [commands, hlen]

theorem body_roll_single (N : NumberT α) (exec : State α → Str → Outcome α) (x : α)
    (al : List (Str × Str)) (hal : aliasFind ['\\', 'r', 'o', 'l', 'l'] al = none) :
    executeBody N exec ⟨[x], al, []⟩ ['\\', 'r', 'o', 'l', 'l'] = .done .ERR ⟨[x], al, []⟩ := by
  rw [executeBody_plain N exec _ _ (by decide) (by simp) (by decide),
    classify_simple N exec _ (by decide) hal (by decide), arithmetic_escape]
  simp [commands, err, front]

/-- C9 (as amended): stack reordering commands, with no alias named by the command.  On every
stack `s ++ [b, a]`, `\swap` returns success and leaves `s ++ [a, b]`.  On every stack
`[x] ++ r` with `r` non-empty, `\roll` returns success and leaves `r ++ [x]`.  On a
one-element stack `\roll` returns the error status and leaves the stack as it is. -/
theorem C9_swap_roll (N : NumberT α) (s r : List α) (a b x : α) (al : List (Str × Str)) :
    (aliasFind "\\swap".toList al = none →
      Runs N ⟨s ++ [b, a], al, []⟩ "\\swap".toList (.done .EXECUTED ⟨s ++ [a, b], al, []⟩)) ∧
    (aliasFind "\\roll".toList al = none → r ≠ [] →
      Runs N ⟨x :: r, al, []⟩ "\\roll".toList (.done .EXECUTED ⟨r ++ [x], al, []⟩)) ∧
    (aliasFind "\\roll".toList al = none →
      Runs N ⟨[x], al, []⟩ "\\roll".toList (.done .ERR ⟨[x], al, []⟩)) :=
  ⟨fun h => Runs.of_body (by simp) (fun exec => body_swap N exec s a b al h),
   fun h hr => Runs.of_body (by simp) (fun exec => body_roll N exec x r al hr h),
   fun h => Runs.of_body (by simp) (fun exec => body_roll_single N exec x al h)⟩

/-- Witness for C9: on `[1, 2, 3]`, `\roll` gives `[2, 3, 1]` and `\swap` gives `[1, 3, 2]`. -/
theorem C9_swap_roll_witness :
    Runs exact ⟨[num 1, num 2, num 3], [], []⟩ "\\roll".toList
        (.done .EXECUTED ⟨[num 2, num 3, num 1], [], []⟩) ∧
      Runs exact ⟨[num 1, num 2, num 3], [], []⟩ "\\swap".toList
        (.done .EXECUTED ⟨[num 1, num 3, num 2], [], []⟩) :=
  ⟨(C9_swap_roll exact [] [num 2, num 3] (num 0) (num 0) (num 1) []).2.1 (by decide)
      (by decide),
   (C9_swap_roll exact [num 1] [] (num 3) (num 2) (num 0) []).1 (by decide)⟩

/-- Counterexample to C9 as stated: on the one-element stack `[1]`, `\roll` returns the error
status, not success; and with an alias named `\swap` (bound to `5`), `\swap` on `[1, 2]`
expands the alias and leaves `[1, 2, 5]`, not `[2, 1]`. -/
theorem C9_counterexample :
    Runs exact ⟨[num 1], [], []⟩ "\\roll".toList (.done .ERR ⟨[num 1], [], []⟩) ∧
    ¬ Runs exact ⟨[num 1], [], []⟩ "\\roll".toList (.done .EXECUTED ⟨[num 1], [], []⟩) ∧
    Runs exact ⟨[num 1, num 2], [("\\swap".toList, ['5'])], []⟩ "\\swap".toList
      (.done .EXECUTED ⟨[num 1, num 2, num 5], [("\\swap".toList, ['5'])], []⟩) ∧
    ¬ Runs exact ⟨[num 1, num 2], [("\\swap".toList, ['5'])], []⟩ "\\swap".toList
      (.done .EXECUTED ⟨[num 2, num 1], [("\\swap".toList, ['5'])], []⟩) := by
  have h1 : Runs exact ⟨[num 1], [], []⟩ "\\roll".toList (.done .ERR ⟨[num 1], [], []⟩) :=
    ⟨1, by decide, by simp⟩
  have h2 : Runs exact ⟨[num 1, num 2], [("\\swap".toList, ['5'])], []⟩ "\\swap".toList
      (.done .EXECUTED ⟨[num 1, num 2, num 5], [("\\swap".toList, ['5'])], []⟩) :=
    ⟨2, by decide, by simp⟩
  exact ⟨h1, fun h => absurd (Runs.unique h1 h) (by decide), h2,
    fun h => absurd (Runs.unique h2 h) (by decide)⟩

theorem aliasFind_assign_self (n v : Str) (al : List (Str × Str)) :
    aliasFind n (aliasAssign n v al) = some v := by
  induction al with
  | nil => simp [aliasAssign, aliasFind]
  | cons kv rest ih =>
    obtain ⟨k, w⟩ := kv
    simp only [aliasAssign]
    by_cases h1 : n = k
    · simp [h1, aliasFind]
    · simp only [if_neg h1]
      by_cases h2 : n < k
      · simp [h2, aliasFind]
      · simp only [if_neg h2, aliasFind, if_neg (Ne.symm h1), ih]

theorem aliasFind_assign_other (n v k : Str) (al : List (Str × Str)) (hk : k ≠ n) :
    aliasFind k (aliasAssign n v al) = aliasFind k al := by
  induction al with
  | nil => simp [aliasAssign, aliasFind, Ne.symm hk]
  | cons kv rest ih =>
    obtain ⟨k1, w⟩ := kv
    simp only [aliasAssign]
    by_cases h1 : n = k1
    · subst h1
      simp [aliasFind, Ne.symm hk]
    · simp only [if_neg h1]
      by_cases h2 : n < k1
      · simp [h2, aliasFind, Ne.symm hk]
      · simp only [if_neg h2, aliasFind, ih]

theorem aliasAssign_idem (n v : Str) (al : List (Str × Str)) :
    aliasAssign n v (aliasAssign n v al) = aliasAssign n v al := by
  induction al with
  | nil => simp [aliasAssign]
  | cons kv rest ih =>
    obtain ⟨k, w⟩ := kv
    simp only [aliasAssign]
    by_cases h1 : n = k
    · simp [h1, aliasAssign]
    · simp only [if_neg h1]
      by_cases h2 : n < k
      · simp [h2, aliasAssign]
      · simp only [if_neg h2, aliasAssign, if_neg h1, ih]

theorem aliasErase_cons (n k w : Str) (rest : List (Str × Str)) :
    aliasErase n ((k, w) :: rest) =
      if k = n then aliasErase n rest else (k, w) :: aliasErase n rest := by
  by_cases h : k = n
  · simp [aliasErase, List.filter_cons, h]
  · simp [aliasErase, List.filter_cons, h]

theorem aliasFind_erase_self (n : Str) (al : List (Str × Str)) :
    aliasFind n (aliasErase n al) = none := by
  induction al with
  | nil => rfl
  | cons kv rest ih =>
    obtain ⟨k, w⟩ := kv
    rw [aliasErase_cons]
    by_cases h : k = n
    · rw [if_pos h, ih]
    · rw [if_neg h]
      simp only [aliasFind, if_neg h, ih]

theorem aliasFind_erase_other (n k : Str) (al : List (Str × Str)) (hk : k ≠ n) :
    aliasFind k (aliasErase n al) = aliasFind k al := by
  induction al with
  | nil => rfl
  | cons kv rest ih =>
    obtain ⟨k1, w⟩ := kv
    rw [aliasErase_cons]
    by_cases h : k1 = n
    · rw [if_pos h, ih]
      have : k1 ≠ k := fun e => hk (e ▸ h)
      simp only [aliasFind, if_neg this]
    · rw [if_neg h]
      simp only [aliasFind, ih]

/-- A plain assignment line `n=v` with a literal body binds `n` to `v`. -/
theorem body_assign_literal (N : NumberT α) (exec : State α → Str → Outcome α)
    (stack : List α) (al : List (Str × Str)) (n v : Str)
    (hn : '=' ∉ n) (hpn : Plain n) (hpv : Plain v) (hv : v ≠ [])
    (h1 : front v ≠ '(') (h2 : front v ≠ '{') (h3 : back v ≠ '\\') :
    executeBody N exec ⟨stack, al, []⟩ (n ++ '=' :: v) =
      .done .EXECUTED ⟨stack, aliasAssign n v al, []⟩ := by
  have hb : back (n ++ '=' :: v) ≠ '\\' := by
    rw [back_append (by simp), back_cons hv]
    exact h3
  rw [executeBody_plain N exec _ _ (hpn.append (Plain.cons (by decide) hpv)) (by simp) hb]
  simp only [classify, find_append v hn, assign, List.take_left, List.drop_append,
    List.drop_succ_cons, List.drop_zero, if_neg hv, if_neg h1, if_neg h2]

/-- The line `n=` erases the alias `n`. -/
theorem body_assign_empty (N : NumberT α) (exec : State α → Str → Outcome α)
    (stack : List α) (al : List (Str × Str)) (n : Str) (hn : '=' ∉ n) (hpn : Plain n) :
    executeBody N exec ⟨stack, al, []⟩ (n ++ ['=']) =
      .done .EXECUTED ⟨stack, aliasErase n al, []⟩ := by
  have hb : back (n ++ ['=']) ≠ '\\' := by
    rw [back_append (by simp)]
    decide
  rw [executeBody_plain N exec _ _ (hpn.append (Plain.cons (by decide) (by decide)))
    (by simp) hb]
  simp only [classify, find_append [] hn, assign, List.take_left, List.drop_append,
    List.drop_succ_cons, List.drop_zero, if_true]

/-- C10: the alias table behaves as a map under assignment.  For a name `n` (no `=`) and a
literal body `v` (non-empty, not beginning with `(` or a brace, the normalized line `n=v` not
ending in `\`), `n=v` returns success, leaves the stack unchanged and leaves the old table with
`n` bound to `v` and every other name as before; `n=` returns success and removes `n`, bound or
not; executing the definition a second time returns success and leaves the table that the
first execution left. -/
theorem C10_alias_map (N : NumberT α) (stack : List α) (al : List (Str × Str)) (n v : Str)
    (hn : '=' ∉ n) (hpn : Plain n) (hpv : Plain v) (hv : v ≠ [])
    (h1 : front v ≠ '(') (h2 : front v ≠ '{') (h3 : back v ≠ '\\') :
    Runs N ⟨stack, al, []⟩ (n ++ '=' :: v)
      (.done .EXECUTED ⟨stack, aliasAssign n v al, []⟩) ∧
    aliasFind n (aliasAssign n v al) = some v ∧
    (∀ k, k ≠ n → aliasFind k (aliasAssign n v al) = aliasFind k al) ∧
    Runs N ⟨stack, al, []⟩ (n ++ ['=']) (.done .EXECUTED ⟨stack, aliasErase n al, []⟩) ∧
    aliasFind n (aliasErase n al) = none ∧
    (∀ k, k ≠ n → aliasFind k (aliasErase n al) = aliasFind k al) ∧
    Runs N ⟨stack, aliasAssign n v al, []⟩ (n ++ '=' :: v)
      (.done .EXECUTED ⟨stack, aliasAssign n v al, []⟩) := by
  refine ⟨Runs.of_body (by simp)
      (fun exec => body_assign_literal N exec stack al n v hn hpn hpv hv h1 h2 h3),
    aliasFind_assign_self n v al, fun k hk => aliasFind_assign_other n v k al hk,
    Runs.of_body (by simp) (fun exec => body_assign_empty N exec stack al n hn hpn),
    aliasFind_erase_self n al, fun k hk => aliasFind_erase_other n k al hk, ?_⟩
  have h := body_assign_literal N (execute N 0) stack (aliasAssign n v al) n v hn hpn hpv hv
    h1 h2 h3
  rw [aliasAssign_idem] at h
  exact ⟨1, h, by simp⟩

/-- Witness for C10: with `b` and `x` bound, `x=3+4` rebinds `x` and keeps `b`. -/
theorem C10_alias_map_witness :
    Runs exact ⟨[num 1], [(['b'], ['2']), (['x'], ['1'])], []⟩ "x=3+4".toList
      (.done .EXECUTED ⟨[num 1], [(['b'], ['2']), (['x'], ['3', '+', '4'])], []⟩) :=
  (C10_alias_map exact [num 1] [(['b'], ['2']), (['x'], ['1'])] ['x'] ['3', '+', '4']
    (by decide) (by decide) (by decide) (by decide) (by decide) (by decide) (by decide)).1

theorem find_some_split {c : Char} {s : Str} {i : Nat} (h : find c s = some i) :
    c ∉ s.take i ∧ s = s.take i ++ c :: s.drop (i + 1) := by
  induction s generalizing i with
  | nil => simp [find] at h
  | cons x xs ih =>
    by_cases hx : x = c
    · simp only [find, if_pos hx, Option.some.injEq] at h
      subst h
      simp [hx]
    · simp only [find, if_neg hx] at h
      cases hf : find c xs with
      | none => simp [hf] at h
      | some j =>
        simp only [hf, Option.map_some', Option.some.injEq] at h
        subst h
        obtain ⟨h1, h2⟩ := ih hf
        refine ⟨?_, ?_⟩
        · simp only [List.take_succ_cons, List.mem_cons, not_or]
          exact ⟨fun e => hx e.symm, h1⟩
        · simp only [List.take_succ_cons, List.drop_succ_cons, List.cons_append]
          rw [← h2]

/-- A plain line with a separator, no `=`, and not naming an alias: the text before the first
`;` is executed, and after success the text behind it. -/
theorem body_split (N : NumberT α) (exec : State α → Str → Outcome α)
    (stack : List α) (al : List (Str × Str)) (line : Str) (i : Nat)
    (hp : Plain line) (hb : back line ≠ '\\') (heq : '=' ∉ line)
    (hal : aliasFind line al = none) (hsep : find ';' line = some i) :
    executeBody N exec ⟨stack, al, []⟩ line =
      EXECUTE_SUBEXPRESSION (exec ⟨stack, al, []⟩ (line.take i))
        (fun st1 => exec st1 (line.drop (i + 1))) := by
  have hne : line ≠ [] := by
    intro e
    rw [e] at hsep
    simp [find] at hsep
  rw [executeBody_plain N exec _ _ hp hne hb]
  simp only [classify, find_eq_none heq, hal, hsep]

/-- C3 (as amended): separator short-circuit without rollback.  For every normalized line
`A;B` (plain text not ending in the continuation marker, `A` the text before the first `;`)
that contains no `=` and is not itself an alias name: if executing `A` returns a non-success
status `r` in state `st1`, executing `A;B` returns `r` in that same state `st1`, whatever `B`
is; if `A` succeeds in state `st1`, the outcome of `A;B` is the outcome of executing `B` in
`st1`. -/
theorem C3_separator_short_circuit (N : NumberT α) (stack : List α) (al : List (Str × Str))
    (A B : Str) (hA : ';' ∉ A) (hp : Plain (A ++ ';' :: B)) (hb : back (A ++ ';' :: B) ≠ '\\')
    (heq : '=' ∉ A ++ ';' :: B) (hal : aliasFind (A ++ ';' :: B) al = none) :
    (∀ r st1, r ≠ .EXECUTED → Runs N ⟨stack, al, []⟩ A (.done r st1) →
      Runs N ⟨stack, al, []⟩ (A ++ ';' :: B) (.done r st1)) ∧
    (∀ st1 o, Runs N ⟨stack, al, []⟩ A (.done .EXECUTED st1) → Runs N st1 B o →
      Runs N ⟨stack, al, []⟩ (A ++ ';' :: B) o) := by
  have hbody : ∀ fuel, execute N (fuel + 1) ⟨stack, al, []⟩ (A ++ ';' :: B) =
      EXECUTE_SUBEXPRESSION (execute N fuel ⟨stack, al, []⟩ A)
        (fun st1 => execute N fuel st1 B) := by
    intro fuel
    have h := body_split N (execute N fuel) stack al (A ++ ';' :: B) A.length hp hb heq hal
      (find_append B hA)
    simpa [execute] using h
  constructor
  · intro r st1 hr hrun
    obtain ⟨n, hn, _⟩ := hrun
    refine ⟨n + 1, ?_, by simp⟩
    rw [hbody, hn]
    cases r <;> first | exact absurd rfl hr | rfl
  · intro st1 o hrunA hrunB
    obtain ⟨n1, h1⟩ := hrunA.mono
    obtain ⟨n2, h2⟩ := hrunB.mono
    obtain ⟨_, _, ho⟩ := hrunB
    refine ⟨max n1 n2 + 1, ?_, ho⟩
    rw [hbody, h1 _ (le_max_left _ _)]
    exact h2 _ (le_max_right _ _)

/-- Witness for C3: in `+;5` on the empty stack the failing `+` stops the line with the error
status; in `1;2` the second statement runs in the state the first one left. -/
theorem C3_separator_short_circuit_witness :
    Runs exact ⟨[], [], []⟩ "+;5".toList (.done .ERR ⟨[], [], []⟩) ∧
      Runs exact ⟨[], [], []⟩ "1;2".toList (.done .EXECUTED ⟨[num 1, num 2], [], []⟩) :=
  ⟨(C3_separator_short_circuit exact [] [] ['+'] ['5'] (by decide) (by decide) (by decide)
      (by decide) (by decide)).1 .ERR ⟨[], [], []⟩ (by decide) ⟨2, by decide, by simp⟩,
   (C3_separator_short_circuit exact [] [] ['1'] ['2'] (by decide) (by decide) (by decide)
      (by decide) (by decide)).2 ⟨[num 1], [], []⟩ _ ⟨1, by decide, by simp⟩
      ⟨1, by decide, by simp⟩⟩

/-- Counterexample to C3 as stated: the line `1;2\` contains no `=` and names no alias, and
its first half `1` succeeds leaving the stack `[1]`, in which `2\` returns the incomplete-line
status with stack `[1]`.  But the whole line is taken as an incomplete line before it is
split: it returns the incomplete-line status with the stack still empty and `1;2` pending. -/
theorem C3_counterexample :
    Runs exact State.init "1".toList (.done .EXECUTED ⟨[num 1], [], []⟩) ∧
    Runs exact ⟨[num 1], [], []⟩ "2\\".toList (.done .END_ESCAPED ⟨[num 1], [], ['2']⟩) ∧
    Runs exact State.init "1;2\\".toList (.done .END_ESCAPED ⟨[], [], "1;2".toList⟩) ∧
    ¬ Runs exact State.init "1;2\\".toList (.done .END_ESCAPED ⟨[num 1], [], ['2']⟩) := by
  have h : Runs exact State.init "1;2\\".toList
      (.done .END_ESCAPED ⟨[], [], "1;2".toList⟩) := ⟨1, by decide, by simp⟩
  exact ⟨⟨1, by decide, by simp⟩, ⟨1, by decide, by simp⟩, h,
    fun h2 => absurd (Runs.unique h h2) (by decide)⟩

theorem scanParens_balanced (o c : Char) (t u : Str) :
    ∀ (d e i : Nat), depth o c t d = some e →
      scanParens o c (t ++ u) i (d + 1) = scanParens o c u (i + t.length) (e + 1) := by
  induction t with
  | nil =>
    intro d e i h
    simp only [depth, Option.some.injEq] at h
    subst h
    simp
  | cons x xs ih =>
    intro d e i h
    simp only [depth] at h
    rw [List.cons_append, scanParens, List.length_cons]
    by_cases hx : x = o
    · simp only [if_pos hx] at h ⊢
      rw [if_neg (by omega), ih (d + 1) e (i + 1) h]
      congr 1
      omega
    · simp only [if_neg hx] at h ⊢
      by_cases hc : x = c
      · simp only [if_pos hc] at h ⊢
        by_cases hd : d = 0
        · simp [hd] at h
        · simp only [if_neg hd] at h
          have e1 : (if d + 1 = 0 then 2 ^ 64 - 1 else d + 1 - 1) = (d - 1) + 1 := by
            rw [if_neg (by omega)]
            omega
          rw [e1, if_neg (by omega), ih (d - 1) e (i + 1) h]
          congr 1
          omega
      · simp only [if_neg hc] at h ⊢
        rw [if_neg (by omega), ih d e (i + 1) h]
        congr 1
        omega

/-- The extractor splits `open t close rest` at the matching close delimiter when `t` is
balanced. -/
theorem processParenthetical_balanced (o c : Char) (hoc : o ≠ c) (t rest : Str)
    (ht : Balanced o c t) :
    processParenthetical (o :: (t ++ c :: rest)) o c = some (t, rest) := by
  have hscan : scanParens o c (o :: (t ++ c :: rest)) 0 0 = some (t.length + 1) := by
    simp only [scanParens, if_true]
    rw [if_neg (by omega), scanParens_balanced o c t (c :: rest) 0 0 1 ht]
    simp only [scanParens, if_neg (Ne.symm hoc), if_true]
    simp
    omega
  unfold processParenthetical
  simp only [front, List.headD_cons, ne_eq, not_true_eq_false, if_false, hscan]
  simp

theorem EXECUTE_SUBEXPRESSION_nil {res : Outcome α} {k : State α → Outcome α} {st2 : State α}
    (hr : ∀ st1, res = .done .EXECUTED st1 → st1.lastInput = [])
    (hk : ∀ st1, st1.lastInput = [] → k st1 = .done .EXECUTED st2 → st2.lastInput = [])
    (h : EXECUTE_SUBEXPRESSION res k = .done .EXECUTED st2) : st2.lastInput = [] := by
  cases res with
  | done r st1 =>
    cases r
    · exact hk st1 (hr st1 rfl) h
    all_goals simp [EXECUTE_SUBEXPRESSION] at h
  | invalidAccess => simp [EXECUTE_SUBEXPRESSION] at h
  | outOfFuel => simp [EXECUTE_SUBEXPRESSION] at h

theorem err_nil {exec : State α → Str → Outcome α} (he : NilBuf exec) {st st2 : State α}
    {input : Str} (h : err exec st input = .done .EXECUTED st2) : st2.lastInput = [] := by
  unfold err at h
  split at h
  · exact he _ _ _ h
  · simp at h

theorem binary_nil {exec : State α → Str → Outcome α} (he : NilBuf exec) {st st2 : State α}
    {input : Str} {f : α → α → α} (hst : st.lastInput = [])
    (h : binary exec st input f = .done .EXECUTED st2) : st2.lastInput = [] := by
  unfold binary at h
  split at h
  · exact err_nil he h
  · split at h
    · simp only [Outcome.done.injEq, true_and] at h
      rw [← h]
      exact hst
    · simp at h

theorem unary_nil {exec : State α → Str → Outcome α} (he : NilBuf exec) {st st2 : State α}
    {input : Str} {f : α → α} (hst : st.lastInput = [])
    (h : unary exec st input f = .done .EXECUTED st2) : st2.lastInput = [] := by
  unfold unary at h
  split at h
  · exact err_nil he h
  · split at h
    · simp only [Outcome.done.injEq, true_and] at h
      rw [← h]
      exact hst
    · simp at h

theorem dereference_nil (N : NumberT α) {exec : State α → Str → Outcome α} (he : NilBuf exec)
    {st st2 : State α} {input : Str}
    (h : dereference N exec st input = .done .EXECUTED st2) : st2.lastInput = [] := by
  unfold dereference at h
  refine EXECUTE_SUBEXPRESSION_nil (he _ _) ?_ h
  intro st1 hst1 h1
  split at h1
  · simp at h1
  · split at h1
    · exact err_nil he h1
    · simp only [Outcome.done.injEq, true_and] at h1
      rw [← h1]
      exact hst1

theorem commands_nil (N : NumberT α) {exec : State α → Str → Outcome α} (he : NilBuf exec)
    {st st2 : State α} {input : Str} (hst : st.lastInput = [])
    (h : commands N exec st input = .done .EXECUTED st2) : st2.lastInput = [] := by
  unfold commands at h
  by_cases c0 : input = ['\\', 'e', 'x', 'i', 't']
  · simp only [if_pos c0] at h
    simp at h
  simp only [if_neg c0] at h
  by_cases c1 : input = ['+']
  · simp only [if_pos c1] at h
    exact binary_nil he hst h
  simp only [if_neg c1] at h
  by_cases c2 : input = ['-']
  · simp only [if_pos c2] at h
    exact binary_nil he hst h
  simp only [if_neg c2] at h
  by_cases c3 : input = ['*']
  · simp only [if_pos c3] at h
    exact binary_nil he hst h
  simp only [if_neg c3] at h
  by_cases c4 : input = ['/']
  · simp only [if_pos c4] at h
    exact binary_nil he hst h
  simp only [if_neg c4] at h
  by_cases c5 : input = ['\\', 'p', 'o', 'w']
  · simp only [if_pos c5] at h
    exact binary_nil he hst h
  simp only [if_neg c5] at h
  by_cases c6 : input = ['1', '/']
  · simp only [if_pos c6] at h
    exact unary_nil he hst h
  simp only [if_neg c6] at h
  by_cases c7 : input = ['\\', 'c', 'l', 'e', 'a', 'r']
  · simp only [if_pos c7] at h
    simp only [Outcome.done.injEq, true_and] at h
    rw [← h]
    exact hst
  simp only [if_neg c7] at h
  by_cases c8 : input = ['\\', 's', 'w', 'a', 'p']
  · simp only [if_pos c8] at h
    split at h
    · exact err_nil he h
    · split at h
      · simp only [Outcome.done.injEq, true_and] at h
        rw [← h]
        exact hst
      · simp at h
  simp only [if_neg c8] at h
  by_cases c9 : input = ['\\', 'r', 'o', 'l', 'l']
  · simp only [if_pos c9] at h
    split at h
    · exact err_nil he h
    · split at h
      · simp only [Outcome.done.injEq, true_and] at h
        rw [← h]
        exact hst
      · simp at h
  simp only [if_neg c9] at h
  by_cases c10 : input = ['\\', 'd', 'r', 'o', 'p']
  · simp only [if_pos c10] at h
    split at h
    · exact err_nil he h
    · simp only [Outcome.done.injEq, true_and] at h
      rw [← h]
      exact hst
  simp only [if_neg c10] at h
  by_cases c11 : front input = '[' ∧ back input = ']'
  · simp only [if_pos c11] at h
    exact dereference_nil N he h
  simp only [if_neg c11] at h
  by_cases c12 : input = ['!', '!']
  · simp only [if_pos c12] at h
    split at h
    · exact err_nil he h
    · split at h
      · simp only [Outcome.done.injEq, true_and] at h
        rw [← h]
        exact hst
      · simp at h
  simp only [if_neg c12] at h
  by_cases c13 : input = ['\\', 'a', 'l', 'i', 'a', 's', 'e', 's']
  · simp only [if_pos c13] at h
    simp only [Outcome.done.injEq, true_and] at h
    rw [← h]
    exact hst
  simp only [if_neg c13] at h
  split at h
  · exact unary_nil he hst h
  · split at h
    · exact err_nil he h
    · split at h
      · exact err_nil he h
      · simp only [Outcome.done.injEq, true_and] at h
        rw [← h]
        exact hst

theorem arithmetic_nil (N : NumberT α) {exec : State α → Str → Outcome α} (he : NilBuf exec)
    {st st2 : State α} {input : Str} (hst : st.lastInput = [])
    (h : arithmetic N exec st input = .done .EXECUTED st2) : st2.lastInput = [] := by
  unfold arithmetic at h
  split at h
  · exact commands_nil N he hst h
  · split at h
    · exact commands_nil N he hst h
    · split at h
      · exact commands_nil N he hst h
      · split at h
        · split at h
          · exact commands_nil N he hst h
          · split at h
            · exact he _ _ _ h
            · exact commands_nil N he hst h
        · exact commands_nil N he hst h

theorem assign_nil (N : NumberT α) {exec : State α → Str → Outcome α} (he : NilBuf exec)
    {st st2 : State α} {input : Str} {eqPos : Nat} (hst : st.lastInput = [])
    (h : assign N exec st input eqPos = .done .EXECUTED st2) : st2.lastInput = [] := by
  unfold assign at h
  simp only at h
  split at h
  · simp only [Outcome.done.injEq, true_and] at h
    rw [← h]
    exact hst
  · split at h
    · split at h
      · exact err_nil he h
      · split at h
        · exact err_nil he h
        · refine EXECUTE_SUBEXPRESSION_nil (he _ _) ?_ h
          intro st1 hst1 h1
          split at h1
          · exact he _ _ _ h1
          · simp only [Outcome.done.injEq, true_and] at h1
            rw [← h1]
            exact hst1
    · split at h
      · split at h
        · exact err_nil he h
        · split at h
          · exact err_nil he h
          · refine EXECUTE_SUBEXPRESSION_nil (he _ _) ?_ h
            intro st1 hst1 h1
            split at h1
            · exact err_nil he h1
            · refine EXECUTE_SUBEXPRESSION_nil (he _ _) ?_ h1
              intro st3 hst3 h3
              split at h3
              · exact he _ _ _ h3
              · simp only [Outcome.done.injEq, true_and] at h3
                rw [← h3]
                exact hst3
      · simp only [Outcome.done.injEq, true_and] at h
        rw [← h]
        exact hst

theorem classify_nil (N : NumberT α) {exec : State α → Str → Outcome α} (he : NilBuf exec)
    {st st2 : State α} {input : Str} (hst : st.lastInput = [])
    (h : classify N exec st input = .done .EXECUTED st2) : st2.lastInput = [] := by
  unfold classify at h
  split at h
  · exact assign_nil N he hst h
  · split at h
    · exact he _ _ _ h
    · split at h
      · exact EXECUTE_SUBEXPRESSION_nil (he _ _) (fun st1 _ h1 => he _ _ _ h1) h
      · exact arithmetic_nil N he hst h

theorem executeBody_nil (N : NumberT α) {exec : State α → Str → Outcome α} (he : NilBuf exec)
    {st st2 : State α} {line : Str}
    (h : executeBody N exec st line = .done .EXECUTED st2) : st2.lastInput = [] := by
  unfold executeBody at h
  simp only at h
  split at h
  · simp only [Outcome.done.injEq, true_and] at h
    rw [← h]
  · split at h
    · simp at h
    · exact classify_nil N he rfl h

/-- A call that returns `EXECUTED` leaves no pending continuation. -/
theorem execute_nil (N : NumberT α) (fuel : Nat) : NilBuf (execute N fuel) := by
  induction fuel with
  | zero => intro st input st1 h; simp [execute] at h
  | succ n ih => intro st input st1 h; exact executeBody_nil N ih h

theorem fmtChar_plain {c : Char} (h : fmtChar c = true) :
    (isspace c = false ∧ c ≠ '#') ∧ c ≠ '(' ∧ c ≠ '{' ∧ c ≠ '\\' := by
  refine ⟨⟨?_, ?_⟩, ?_, ?_, ?_⟩
  · cases hs : isspace c with
    | false => rfl
    | true =>
      simp only [isspace, Bool.or_eq_true, beq_iff_eq] at hs
      rcases hs with ((((rfl | rfl) | rfl) | rfl) | rfl) | rfl <;> exact absurd h (by decide)
  all_goals
    rintro rfl
    exact absurd h (by decide)

theorem front_mem {s : Str} (h : s ≠ []) : front s ∈ s := by
  cases s with
  | nil => exact absurd rfl h
  | cons c t => simp [front]

theorem back_mem {s : Str} (h : s ≠ []) : back s ∈ s := by
  have := List.getLast_mem h
  simp only [back, List.getLastD_eq_getLast?, List.getLast?_eq_getLast _ h, Option.getD_some]
  exact this

/-- The text of a formatted number is a literal alias body. -/
theorem format_literal (N : NumberT α) (v : α) :
    Plain (N.format v) ∧ N.format v ≠ [] ∧ front (N.format v) ≠ '(' ∧
      front (N.format v) ≠ '{' ∧ back (N.format v) ≠ '\\' := by
  have hne := N.format_ne_nil v
  have hf := fmtChar_plain (N.format_chars v _ (front_mem hne))
  have hb := fmtChar_plain (N.format_chars v _ (back_mem hne))
  exact ⟨fun c hc => (fmtChar_plain (N.format_chars v c hc)).1, hne, hf.2.1, hf.2.2.1,
    hb.2.2.2⟩

/-- An immediate-evaluation assignment evaluates the enclosed text, pops the
result and hands the line `n=<formatted result>` to a recursive call. -/
theorem body_assign_brace (N : NumberT α) (exec : State α → Str → Outcome α)
    (stack : List α) (al : List (Str × Str)) (n e : Str)
    (hn : '=' ∉ n) (hpn : Plain n) (hpe : Plain e) (he : Balanced '{' '}' e) :
    executeBody N exec ⟨stack, al, []⟩ (n ++ '=' :: '{' :: (e ++ ['}'])) =
      EXECUTE_SUBEXPRESSION (exec ⟨stack, al, []⟩ e) (fun st1 =>
        match pop_back st1.stack with
        | none => err exec st1 (n ++ '=' :: '{' :: (e ++ ['}']))
        | some (v, s) =>
          EXECUTE_SUBEXPRESSION (exec { st1 with stack := s } (n ++ '=' :: N.format v))
            (fun st2 => .done .EXECUTED st2)) := by
  have hb : back (n ++ '=' :: '{' :: (e ++ ['}'])) ≠ '\\' := by
    have e1 : n ++ '=' :: '{' :: (e ++ ['}']) = (n ++ '=' :: '{' :: e) ++ ['}'] := by simp
    rw [e1, back_append (by simp)]
    decide
  have hpl : Plain (n ++ '=' :: '{' :: (e ++ ['}'])) :=
    hpn.append (Plain.cons (by decide) (Plain.cons (by decide) (hpe.append (by decide))))
  rw [executeBody_plain N exec _ _ hpl (by simp) hb]
  have hpp := processParenthetical_balanced '{' '}' (by decide) e [] he
  have h1 : ¬ ('{' = '(') := by decide
  simp only [classify, find_append _ hn, assign, List.take_left, List.drop_append,
    List.drop_succ_cons, List.drop_zero, front, List.headD_cons, hpp, if_neg h1]
  simp

/-- C5 (as amended): immediate-evaluation assignment freezes a constant.  For every alias name
`n` (no `=`) and normalized body `e` with balanced braces such that executing `e` in the
current state succeeds and leaves a non-empty stack `s ++ [v]`, executing `n={e}` returns
success, leaves the stack `s` and binds `n` to the textual form of `v`; the alias table is
otherwise as `e` left it.  From the empty state, `c={1;1;+}` leaves the stack empty and binds
`c` to the text `2`, and then executing `c` leaves the stack `[2]`. -/
theorem C5_immediate_assignment (N : NumberT α) (stack s : List α) (v : α)
    (al : List (Str × Str)) (n e : Str) (st1 : State α)
    (hn : '=' ∉ n) (hpn : Plain n) (hpe : Plain e) (hbal : Balanced '{' '}' e)
    (hrun : Runs N ⟨stack, al, []⟩ e (.done .EXECUTED st1)) (hstack : st1.stack = s ++ [v]) :
    Runs N ⟨stack, al, []⟩ (n ++ '=' :: '{' :: (e ++ ['}']))
      (.done .EXECUTED ⟨s, aliasAssign n (N.format v) st1.aliases, []⟩) ∧
    aliasFind n (aliasAssign n (N.format v) st1.aliases) = some (N.format v) ∧
    (∀ k, k ≠ n →
      aliasFind k (aliasAssign n (N.format v) st1.aliases) = aliasFind k st1.aliases) ∧
    Runs exact State.init "c=\x7b1;1;+\x7d".toList
      (.done .EXECUTED ⟨[], [(['c'], ['2'])], []⟩) ∧
    Runs exact ⟨[], [(['c'], ['2'])], []⟩ ['c']
      (.done .EXECUTED ⟨[num 2], [(['c'], ['2'])], []⟩) := by
  refine ⟨?_, aliasFind_assign_self _ _ _, fun k hk => aliasFind_assign_other _ _ _ _ hk,
    ⟨5, by decide, by simp⟩, ⟨2, by decide, by simp⟩⟩
  obtain ⟨m, hm⟩ := hrun.mono
  have hnil : st1.lastInput = [] := execute_nil N m _ _ _ (hm m (le_refl m))
  obtain ⟨hf1, hf2, hf3, hf4, hf5⟩ := format_literal N v
  refine ⟨m + 1 + 1, ?_, by simp⟩
  have hbody := body_assign_brace N (execute N (m + 1)) stack al n e hn hpn hpe hbal
  have hasg : execute N (m + 1) ⟨s, st1.aliases, []⟩ (n ++ '=' :: N.format v) =
      .done .EXECUTED ⟨s, aliasAssign n (N.format v) st1.aliases, []⟩ :=
    body_assign_literal N (execute N m) s st1.aliases n (N.format v) hn hpn hf1 hf2 hf3 hf4 hf5
  show executeBody N (execute N (m + 1)) _ _ = _
  rw [hbody, hm (m + 1) (by omega)]
  simp only [EXECUTE_SUBEXPRESSION, hstack, pop_back_append, hnil, hasg]

/-- Witness for C5: on the stack `[4, 6]`, `t={3;*}` multiplies the top by 3, pops the result
18 into the alias `t` and leaves `[4]`. -/
theorem C5_immediate_assignment_witness :
    Runs exact ⟨[num 4, num 6], [], []⟩ "t=\x7b3;*\x7d".toList
      (.done .EXECUTED ⟨[num 4], [(['t'], ['1', '8'])], []⟩) :=
  (C5_immediate_assignment exact [num 4, num 6] [num 4] (num 18) [] ['t'] "3;*".toList
    ⟨[num 4, num 18], [], []⟩ (by decide) (by decide) (by decide) (by decide)
    ⟨3, by decide, by simp⟩ rfl).1

/-- Counterexample to C5 as stated: on the stack `[5]` the body `a=}` executes with success
(it binds `a`) and leaves the non-empty stack `[5]`, but the line `n={a=}}` returns the error
status, keeps the stack `[5]` and binds nothing: the extractor closes the group at the first
`}` and rejects the text behind it. -/
theorem C5_counterexample :
    Runs exact ⟨[num 5], [], []⟩ "a=\x7d".toList
      (.done .EXECUTED ⟨[num 5], [(['a'], ['\x7d'])], []⟩) ∧
    Runs exact ⟨[num 5], [], []⟩ "n=\x7ba=\x7d\x7d".toList (.done .ERR ⟨[num 5], [], []⟩) ∧
    ∀ st2, ¬ Runs exact ⟨[num 5], [], []⟩ "n=\x7ba=\x7d\x7d".toList (.done .EXECUTED st2) := by
  have h : Runs exact ⟨[num 5], [], []⟩ "n=\x7ba=\x7d\x7d".toList
      (.done .ERR ⟨[num 5], [], []⟩) := ⟨2, by decide, by simp⟩
  exact ⟨⟨1, by decide, by simp⟩, h, fun st2 h2 => absurd (Runs.unique h h2) (by simp)⟩

theorem unary_find_none {input : Str} (h : front input ≠ '\\') :
    UnaryFn.all.find? (fun f => decide (input = '\\' :: f.name)) = none := by
  rw [List.find?_eq_none]
  intro f _ hf
  simp only [decide_eq_true_eq] at hf
  rw [hf] at h
  exact h rfl

/-- Text ending in a digit and not led by the escape character is no command: the chain of
commands ends in the numeric branch. -/
theorem commands_number (N : NumberT α) (exec : State α → Str → Outcome α) (st : State α)
    {input : Str} (hb : (back input).isDigit = true) (hf : front input ≠ '\\') :
    commands N exec st input =
      match N.stold input with
      | none => err exec st input
      | some (num, numConvertedChars) =>
        if numConvertedChars ≠ input.length then err exec st input
        else .done .EXECUTED { st with stack := st.stack ++ [num] } := by
  have n0 : input ≠ ['\\', 'e', 'x', 'i', 't'] := fun e => by rw [e] at hb; exact absurd hb (by decide)
  have n1 : input ≠ ['+'] := fun e => by rw [e] at hb; exact absurd hb (by decide)
  have n2 : input ≠ ['-'] := fun e => by rw [e] at hb; exact absurd hb (by decide)
  have n3 : input ≠ ['*'] := fun e => by rw [e] at hb; exact absurd hb (by decide)
  have n4 : input ≠ ['/'] := fun e => by rw [e] at hb; exact absurd hb (by decide)
  have n5 : input ≠ ['\\', 'p', 'o', 'w'] := fun e => by rw [e] at hb; exact absurd hb (by decide)
  have n6 : input ≠ ['1', '/'] := fun e => by rw [e] at hb; exact absurd hb (by decide)
  have n7 : input ≠ ['\\', 'c', 'l', 'e', 'a', 'r'] := fun e => by rw [e] at hb; exact absurd hb (by decide)
  have n8 : input ≠ ['\\', 's', 'w', 'a', 'p'] := fun e => by rw [e] at hb; exact absurd hb (by decide)
  have n9 : input ≠ ['\\', 'r', 'o', 'l', 'l'] := fun e => by rw [e] at hb; exact absurd hb (by decide)
  have n10 : input ≠ ['\\', 'd', 'r', 'o', 'p'] := fun e => by rw [e] at hb; exact absurd hb (by decide)
  have n11 : input ≠ ['!', '!'] := fun e => by rw [e] at hb; exact absurd hb (by decide)
  have n12 : input ≠ ['\\', 'a', 'l', 'i', 'a', 's', 'e', 's'] := fun e => by rw [e] at hb; exact absurd hb (by decide)
  have nd : ¬ (front input = '[' ∧ back input = ']') :=
    fun e => by rw [e.2] at hb; exact absurd hb (by decide)
  unfold commands
  simp only [if_neg n0, if_neg n1, if_neg n2, if_neg n3, if_neg n4, if_neg n5, if_neg n6,
    if_neg n7, if_neg n8, if_neg n9, if_neg n10, if_neg n11, if_neg n12, if_neg nd,
    unary_find_none hf]

theorem isDigit_plain {c : Char} (h : c.isDigit = true ∨ c = '-') :
    (isspace c = false ∧ c ≠ '#') ∧ c ≠ '=' ∧ c ≠ ';' ∧ c ≠ '\\' := by
  have hfc : fmtChar c = true := by
    rcases h with h | rfl
    · simp [fmtChar, h]
    · decide
  refine ⟨(fmtChar_plain hfc).1, ?_, ?_, (fmtChar_plain hfc).2.2.2⟩
  all_goals
    rintro rfl
    exact absurd hfc (by decide)

theorem intLiteral_facts {lit : Str} (h : isIntLiteral lit = true) :
    lit ≠ [] ∧ (∀ c ∈ lit, c.isDigit = true ∨ c = '-') ∧ (back lit).isDigit = true := by
  unfold isIntLiteral at h
  cases lit with
  | nil => simp [front] at h
  | cons x xs =>
    refine ⟨by simp, ?_⟩
    by_cases hx : x = '-'
    · subst hx
      simp only [front, List.headD_cons, if_true, List.drop_succ_cons, List.drop_zero,
        Bool.and_eq_true, Bool.not_eq_true', List.isEmpty_eq_false, List.all_eq_true] at h
      have hne : xs ≠ [] := by
        intro e
        simp [e] at h
      refine ⟨?_, ?_⟩
      · intro c hc
        rcases List.mem_cons.mp hc with rfl | hc
        · exact Or.inr rfl
        · exact Or.inl (h.2 c hc)
      · rw [back_cons hne]
        exact h.2 _ (back_mem hne)
    · simp only [front, List.headD_cons, if_neg hx, Bool.and_eq_true, List.all_eq_true] at h
      exact ⟨fun c hc => Or.inl (h.2 c hc), h.2 _ (back_mem (by simp))⟩

/-- An integer literal that names no alias is pushed as the number the library reads. -/
theorem body_literal (N : NumberT α) (exec : State α → Str → Outcome α)
    (stack : List α) (al : List (Str × Str)) (lit : Str) (v : α)
    (hlit : isIntLiteral lit = true) (hval : N.stold lit = some (v, lit.length))
    (hal : aliasFind lit al = none) :
    executeBody N exec ⟨stack, al, []⟩ lit = .done .EXECUTED ⟨stack ++ [v], al, []⟩ := by
  obtain ⟨hne, hch, hbk⟩ := intLiteral_facts hlit
  have hb : back lit ≠ '\\' := (isDigit_plain (Or.inl hbk)).2.2.2
  have hfr : front lit ≠ '\\' := (isDigit_plain (hch _ (front_mem hne))).2.2.2
  rw [executeBody_plain N exec _ _ (fun c hc => (isDigit_plain (hch c hc)).1) hne hb,
    classify_simple N exec _ (fun hm => (isDigit_plain (hch _ hm)).2.1 rfl) hal
      (fun hm => (isDigit_plain (hch _ hm)).2.2.1 rfl)]
  have c0 : lit.length = 0 ∨ lit.length + 2 > lit.length := Or.inr (by omega)
  simp only [arithmetic, hval, if_pos c0]
  rw [commands_number N exec _ hbk hfr]
  simp [hval]

/-- A bracketed text that names no alias and has no `=` or `;` is an index dereference. -/
theorem body_brackets (N : NumberT α) (exec : State α → Str → Outcome α)
    (stack : List α) (al : List (Str × Str)) (t : Str) (hp : Plain t)
    (heq : '=' ∉ t) (hsep : ';' ∉ t) (hal : aliasFind ('[' :: (t ++ [']'])) al = none) :
    executeBody N exec ⟨stack, al, []⟩ ('[' :: (t ++ [']'])) =
      EXECUTE_SUBEXPRESSION (exec ⟨stack, al, []⟩ t) (fun st1 =>
        match pop_back st1.stack with
        | none => .invalidAccess
        | some (reqIdx, s) =>
          match s.get? (derefIndex N reqIdx s.length) with
          | none => err exec { st1 with stack := s } ('[' :: (t ++ [']']))
          | some x => .done .EXECUTED { st1 with stack := s ++ [x] }) := by
  have hbk : back ('[' :: (t ++ [']'])) = ']' := by
    have e1 : '[' :: (t ++ [']']) = ('[' :: t) ++ [']'] := by simp
    rw [e1, back_append (by simp)]
    rfl
  have hpl : Plain ('[' :: (t ++ [']'])) := Plain.cons (by decide) (hp.append (by decide))
  have h1 : '=' ∉ '[' :: (t ++ [']']) := by simp [heq]
  have h2 : ';' ∉ '[' :: (t ++ [']']) := by simp [hsep]
  have hst : N.stold ('[' :: (t ++ [']'])) = none := by
    cases hs : N.stold ('[' :: (t ++ [']'])) with
    | none => rfl
    | some p =>
      have := N.stold_head _ p.1 p.2 hs
      simp [front, numStart, isspace] at this
  rw [executeBody_plain N exec _ _ hpl (by simp) (by rw [hbk]; decide),
    classify_simple N exec _ h1 hal h2]
  simp only [arithmetic, hst]
  unfold commands
  rw [if_neg (by simp), if_neg (by simp), if_neg (by simp), if_neg (by simp),
    if_neg (by simp), if_neg (by simp), if_neg (by simp), if_neg (by simp), if_neg (by simp),
    if_neg (by simp), if_neg (by simp), if_pos ⟨rfl, hbk⟩]
  unfold dereference
  simp

/-- Dereference by an integer literal: the literal is pushed, popped again, and the element at
the computed index is copied to the top. -/
theorem deref_literal (N : NumberT α) (s : List α) (al : List (Str × Str)) (lit : Str)
    (v x : α) (hlit : isIntLiteral lit = true) (hval : N.stold lit = some (v, lit.length))
    (hal : aliasFind ('[' :: (lit ++ [']'])) al = none) (hal2 : aliasFind lit al = none)
    (hx : s.get? (derefIndex N v s.length) = some x) :
    Runs N ⟨s, al, []⟩ ('[' :: (lit ++ [']'])) (.done .EXECUTED ⟨s ++ [x], al, []⟩) := by
  obtain ⟨_, hch, _⟩ := intLiteral_facts hlit
  have hbody := body_brackets N (execute N 1) s al lit
    (fun c hc => (isDigit_plain (hch c hc)).1) (fun hm => (isDigit_plain (hch _ hm)).2.1 rfl)
    (fun hm => (isDigit_plain (hch _ hm)).2.2.1 rfl) hal
  have hpush : execute N 1 ⟨s, al, []⟩ lit = .done .EXECUTED ⟨s ++ [v], al, []⟩ :=
    body_literal N (execute N 0) s al lit v hlit hval hal2
  refine ⟨2, ?_, by simp⟩
  show executeBody N (execute N 1) _ _ = _
  rw [hbody, hpush]
  simp only [EXECUTE_SUBEXPRESSION, pop_back_append, hx]

/-- C6 (as amended): index dereference copies without removing.  With an alias table that has
no entry matching the line `[k]` nor the literal `k`, for every stack `s` of size `n` and
every integer literal that the numeric library reads as a value rounding to `k`: `[k]` returns
success and leaves `s ++ [s[k]]` when `0 <= k < n`, and `s ++ [s[n+k]]` when `-n <= k < 0`;
every original element stays in place.  On `[10, 20, 30]`, `[-1]` gives `[10, 20, 30, 30]`
and `[0]` gives `[10, 20, 30, 10]`. -/
theorem C6_index_dereference (N : NumberT α) (s : List α) (al : List (Str × Str)) (lit : Str)
    (v : α) (k : Int) (hsize : s.length < 2 ^ 64) (hlit : isIntLiteral lit = true)
    (hval : N.stold lit = some (v, lit.length)) (hround : N.llroundl v = k)
    (hsign : N.ltZero v = decide (k < 0))
    (hal : aliasFind ('[' :: (lit ++ [']'])) al = none) (hal2 : aliasFind lit al = none) :
    (0 ≤ k → k < s.length → ∃ x, s.get? k.toNat = some x ∧
      Runs N ⟨s, al, []⟩ ('[' :: (lit ++ [']'])) (.done .EXECUTED ⟨s ++ [x], al, []⟩)) ∧
    (-(s.length : Int) ≤ k → k < 0 → ∃ x, s.get? ((s.length : Int) + k).toNat = some x ∧
      Runs N ⟨s, al, []⟩ ('[' :: (lit ++ [']'])) (.done .EXECUTED ⟨s ++ [x], al, []⟩)) ∧
    Runs exact ⟨[num 10, num 20, num 30], [], []⟩ "[-1]".toList
      (.done .EXECUTED ⟨[num 10, num 20, num 30, num 30], [], []⟩) ∧
    Runs exact ⟨[num 10, num 20, num 30], [], []⟩ "[0]".toList
      (.done .EXECUTED ⟨[num 10, num 20, num 30, num 10], [], []⟩) := by
  refine ⟨?_, ?_, ⟨2, by decide, by simp⟩, ⟨2, by decide, by simp⟩⟩
  · intro h0 h1
    have hidx : derefIndex N v s.length = k.toNat := by
      have hs : N.ltZero v = false := by rw [hsign]; simpa using h0
      simp only [derefIndex, hs, hround, Bool.false_eq_true, if_false]
      omega
    have hlt : k.toNat < s.length := by omega
    refine ⟨s.get ⟨k.toNat, hlt⟩, List.get?_eq_get hlt, ?_⟩
    exact deref_literal N s al lit v _ hlit hval hal hal2 (by rw [hidx]; exact List.get?_eq_get hlt)
  · intro h0 h1
    have hidx : derefIndex N v s.length = ((s.length : Int) + k).toNat := by
      have hs : N.ltZero v = true := by rw [hsign]; simpa using h1
      simp only [derefIndex, hs, hround, if_true]
      omega
    have hlt : ((s.length : Int) + k).toNat < s.length := by omega
    refine ⟨s.get ⟨_, hlt⟩, List.get?_eq_get hlt, ?_⟩
    exact deref_literal N s al lit v _ hlit hval hal hal2 (by rw [hidx]; exact List.get?_eq_get hlt)

/-- Witness for C6: `[-2]` on `[10, 20, 30]` with the alias `x` bound copies 20. -/
theorem C6_index_dereference_witness :
    ∃ x, [num 10, num 20, num 30].get? ((3 : Int) + (-2)).toNat = some x ∧
      Runs exact ⟨[num 10, num 20, num 30], [(['x'], ['1'])], []⟩ "[-2]".toList
        (.done .EXECUTED ⟨[num 10, num 20, num 30] ++ [x], [(['x'], ['1'])], []⟩) :=
  (C6_index_dereference exact [num 10, num 20, num 30] [(['x'], ['1'])] "-2".toList (num (-2))
    (-2) (by decide) (by decide) (by decide) (by decide) (by decide) (by decide)
    (by decide)).2.1 (by decide) (by decide)

/-- Counterexample to C6 as stated: the alias table binding only `0` (to `1`) has no entry
matching the line `[0]`, yet on `[10, 20, 30]` the line `[0]` appends `s[1] = 20`, not
`s[0] = 10`: the index text is itself executed as a line and expands the alias. -/
theorem C6_counterexample :
    aliasFind "[0]".toList [(['0'], ['1'])] = none ∧
    Runs exact ⟨[num 10, num 20, num 30], [(['0'], ['1'])], []⟩ "[0]".toList
      (.done .EXECUTED ⟨[num 10, num 20, num 30, num 20], [(['0'], ['1'])], []⟩) ∧
    ¬ Runs exact ⟨[num 10, num 20, num 30], [(['0'], ['1'])], []⟩ "[0]".toList
      (.done .EXECUTED ⟨[num 10, num 20, num 30, num 10], [(['0'], ['1'])], []⟩) := by
  have h : Runs exact ⟨[num 10, num 20, num 30], [(['0'], ['1'])], []⟩ "[0]".toList
      (.done .EXECUTED ⟨[num 10, num 20, num 30, num 20], [(['0'], ['1'])], []⟩) :=
    ⟨3, by decide, by simp⟩
  exact ⟨by decide, h, fun h2 => absurd (Runs.unique h h2) (by decide)⟩

/-- C7 (failing input): the line `[]` on the empty stack.  The empty index expression succeeds
and pushes nothing, and the dereference then calls `pop_back()` on the empty stack: the call
does not return the error status, for any numeric library.  The same happens for `[\clear]`;
an index outside the stack, as `[5]` on a two-element stack, does return the error status. -/
theorem C7_dereference_pops_empty_stack (N : NumberT α) :
    Runs N ⟨[], [], []⟩ "[]".toList .invalidAccess ∧
    (∀ r st, ¬ Runs N ⟨[], [], []⟩ "[]".toList (.done r st)) ∧
    Runs exact ⟨[], [], []⟩ "[\\clear]".toList .invalidAccess ∧
    Runs exact ⟨[num 1, num 2], [], []⟩ "[5]".toList (.done .ERR ⟨[num 1, num 2], [], []⟩) := by
  have h : Runs N ⟨[], [], []⟩ "[]".toList .invalidAccess := by
    have hbody := body_brackets N (execute N 1) [] [] [] (by decide) (by simp) (by simp) rfl
    have hempty : execute N 1 (⟨[], [], []⟩ : State α) [] = .done .EXECUTED ⟨[], [], []⟩ := rfl
    refine ⟨2, ?_, by simp⟩
    show executeBody N (execute N 1) _ ('[' :: ([] ++ [']'])) = _
    rw [hbody, hempty]
    rfl
  exact ⟨h, fun r st h2 => absurd (Runs.unique h h2) (by simp), ⟨2, by decide, by simp⟩,
    ⟨3, by decide, by simp⟩⟩

/-! ### Continuation (C11) -/

theorem eraseWhitespace_append (a b : Str) :
    eraseWhitespace (a ++ b) = eraseWhitespace a ++ eraseWhitespace b := by
  simp [eraseWhitespace]

theorem eraseWhitespace_idem (a : Str) : eraseWhitespace (eraseWhitespace a) = eraseWhitespace a := by
  simp [eraseWhitespace, List.filter_filter]

theorem eraseComment_of_not_mem {s : Str} (h : '#' ∉ s) : eraseComment s = s := by
  unfold eraseComment
  rw [find_eq_none h]

theorem not_mem_eraseWhitespace {c : Char} {s : Str} (h : c ∉ s) : c ∉ eraseWhitespace s :=
  fun hm => h (List.mem_of_mem_filter hm)

/-- A line ending in the continuation marker is stored, stripped of the marker. -/
theorem body_continuation (N : NumberT α) (exec : State α → Str → Outcome α)
    (stack : List α) (al : List (Str × Str)) (l1 : Str) (h : '#' ∉ l1) :
    executeBody N exec ⟨stack, al, []⟩ (l1 ++ ['\\']) =
      .done .END_ESCAPED ⟨stack, al, eraseWhitespace l1⟩ := by
  have hws : eraseWhitespace (l1 ++ ['\\']) = eraseWhitespace l1 ++ ['\\'] := by
    rw [eraseWhitespace_append]
    rfl
  have hnc : '#' ∉ eraseWhitespace l1 ++ ['\\'] := by
    intro hm
    rcases List.mem_append.mp hm with h1 | h1
    · exact not_mem_eraseWhitespace h h1
    · simp at h1
  have hbk : back (eraseWhitespace l1 ++ ['\\']) = '\\' := by
    rw [back_append (by simp)]
    rfl
  unfold executeBody
  simp only [List.nil_append, hws, eraseComment_of_not_mem hnc, hbk]
  simp

/-- The pending fragment and the next line are read as one line. -/
theorem body_joined (N : NumberT α) (exec : State α → Str → Outcome α)
    (stack : List α) (al : List (Str × Str)) (l1 l2 : Str) :
    executeBody N exec ⟨stack, al, eraseWhitespace l1⟩ l2 =
      executeBody N exec ⟨stack, al, []⟩ (l1 ++ l2) := by
  unfold executeBody
  simp only [List.nil_append, eraseWhitespace_append, eraseWhitespace_idem]

/-- C11: continuation joins exactly once.  From a state with an empty continuation buffer, for
every text `l1` without `#` and every line `l2`: submitting `l1` followed by `\` returns the
incomplete-line status and changes neither stack nor alias table (the whitespace-free `l1` is
stored); submitting `l2` next has, at every recursion budget, the same outcome (status, stack,
alias table and continuation buffer) as submitting the single line `l1 ++ l2` to the original
state. -/
theorem C11_continuation_joins_once (N : NumberT α) (stack : List α) (al : List (Str × Str))
    (l1 l2 : Str) (h : '#' ∉ l1) :
    Runs N ⟨stack, al, []⟩ (l1 ++ ['\\'])
      (.done .END_ESCAPED ⟨stack, al, eraseWhitespace l1⟩) ∧
    (∀ fuel, execute N fuel ⟨stack, al, eraseWhitespace l1⟩ l2 =
      execute N fuel ⟨stack, al, []⟩ (l1 ++ l2)) ∧
    (∀ o, Runs N ⟨stack, al, eraseWhitespace l1⟩ l2 o ↔
      Runs N ⟨stack, al, []⟩ (l1 ++ l2) o) := by
  have hfuel : ∀ fuel, execute N fuel ⟨stack, al, eraseWhitespace l1⟩ l2 =
      execute N fuel ⟨stack, al, []⟩ (l1 ++ l2) := by
    intro fuel
    cases fuel with
    | zero => rfl
    | succ n => exact body_joined N (execute N n) stack al l1 l2
  refine ⟨Runs.of_body (by simp) (fun exec => body_continuation N exec stack al l1 h), hfuel, ?_⟩
  intro o
  constructor
  · rintro ⟨n, hn, ho⟩
    exact ⟨n, by rw [← hfuel]; exact hn, ho⟩
  · rintro ⟨n, hn, ho⟩
    exact ⟨n, by rw [hfuel]; exact hn, ho⟩

/-- Witness for C11: `3;4;\` followed by `+` leaves `[7]`, as the single line `3;4;+` does. -/
theorem C11_continuation_joins_once_witness :
    Runs exact State.init "3; 4;\\".toList (.done .END_ESCAPED ⟨[], [], "3;4;".toList⟩) ∧
      Runs exact ⟨[], [], eraseWhitespace "3; 4;".toList⟩ "+".toList
        (.done .EXECUTED ⟨[num 7], [], []⟩) :=
  ⟨(C11_continuation_joins_once exact [] [] "3; 4;".toList "+".toList (by decide)).1,
   ((C11_continuation_joins_once exact [] [] "3; 4;".toList "+".toList (by decide)).2.2 _).2
     ⟨4, by decide, by simp⟩⟩

/-! ### Escape retry (C13) -/

theorem depth_counts (o c : Char) (hoc : o ≠ c) (t : Str) :
    ∀ d e, depth o c t d = some e →
      (∀ k, List.count c (t.take k) ≤ d + List.count o (t.take k)) ∧
        e + List.count c t = d + List.count o t := by
  induction t with
  | nil =>
    intro d e h
    simp only [depth, Option.some.injEq] at h
    subst h
    simp
  | cons x xs ih =>
    intro d e h
    simp only [depth] at h
    by_cases hx : x = o
    · subst hx
      simp only [if_true] at h
      obtain ⟨h1, h2⟩ := ih (d + 1) e h
      refine ⟨?_, ?_⟩
      · intro k
        cases k with
        | zero => simp
        | succ k =>
          rw [List.take_succ_cons, List.count_cons_of_ne hoc.symm, List.count_cons_self]
          have := h1 k
          omega
      · rw [List.count_cons_of_ne hoc.symm, List.count_cons_self]
        omega
    · simp only [if_neg hx] at h
      by_cases hc : x = c
      · subst hc
        simp only [if_true] at h
        by_cases hd : d = 0
        · simp [hd] at h
        · simp only [if_neg hd] at h
          obtain ⟨h1, h2⟩ := ih (d - 1) e h
          refine ⟨?_, ?_⟩
          · intro k
            cases k with
            | zero => simp
            | succ k =>
              rw [List.take_succ_cons, List.count_cons_self,
                List.count_cons_of_ne (Ne.symm hx)]
              have := h1 k
              omega
          · rw [List.count_cons_self, List.count_cons_of_ne (Ne.symm hx)]
            omega
      · simp only [if_neg hc] at h
        obtain ⟨h1, h2⟩ := ih d e h
        refine ⟨?_, ?_⟩
        · intro k
          cases k with
          | zero => simp
          | succ k =>
            rw [List.take_succ_cons, List.count_cons_of_ne (Ne.symm hc),
              List.count_cons_of_ne (Ne.symm hx)]
            exact h1 k
        · rw [List.count_cons_of_ne (Ne.symm hc), List.count_cons_of_ne (Ne.symm hx)]
          exact h2

/-- A successful scan stops at a close delimiter that follows balanced text. -/
theorem scanParens_some (o c : Char) (s : Str) :
    ∀ d i j, scanParens o c s i (d + 1) = some j →
      ∃ t rest, s = t ++ c :: rest ∧ j = i + t.length ∧ depth o c t d = some 0 := by
  induction s with
  | nil => intro d i j h; simp [scanParens] at h
  | cons x xs ih =>
    intro d i j h
    rw [scanParens] at h
    by_cases hx : x = o
    · simp only [if_pos hx] at h
      rw [if_neg (by omega)] at h
      obtain ⟨t, rest, h1, h2, h3⟩ := ih (d + 1) (i + 1) j h
      refine ⟨x :: t, rest, by rw [h1]; rfl, by simp only [List.length_cons]; omega, ?_⟩
      simp only [depth, if_pos hx, h3]
    · simp only [if_neg hx] at h
      by_cases hc : x = c
      · simp only [if_pos hc] at h
        have e0 : (if d + 1 = 0 then 2 ^ 64 - 1 else d + 1 - 1) = d := by
          rw [if_neg (by omega)]
          omega
        rw [e0] at h
        by_cases hd : d = 0
        · subst hd
          simp only [if_true, Option.some.injEq] at h
          exact ⟨[], xs, by rw [hc]; rfl, by simp [h], rfl⟩
        · have e1 : d = (d - 1) + 1 := by omega
          rw [if_neg hd, e1] at h
          obtain ⟨t, rest, h1, h2, h3⟩ := ih (d - 1) (i + 1) j h
          refine ⟨x :: t, rest, by rw [h1]; rfl, by simp only [List.length_cons]; omega, ?_⟩
          simp only [depth, if_neg hx, if_pos hc, if_neg hd, h3]
      · simp only [if_neg hc] at h
        rw [if_neg (by omega)] at h
        obtain ⟨t, rest, h1, h2, h3⟩ := ih d (i + 1) j h
        refine ⟨x :: t, rest, by rw [h1]; rfl, by simp only [List.length_cons]; omega, ?_⟩
        simp only [depth, if_neg hx, if_neg hc, h3]

/-- A scan that finds no match keeps the counter positive on every prefix. -/
theorem scanParens_none (o c : Char) (hoc : o ≠ c) (s : Str) :
    ∀ d i, scanParens o c s i (d + 1) = none →
      ∀ m, List.count c (s.take m) ≤ d + List.count o (s.take m) := by
  induction s with
  | nil => intro d i _ m; simp
  | cons x xs ih =>
    intro d i h m
    rw [scanParens] at h
    cases m with
    | zero => simp
    | succ m =>
      rw [List.take_succ_cons]
      by_cases hx : x = o
      · simp only [if_pos hx] at h
        rw [if_neg (by omega)] at h
        have := ih (d + 1) (i + 1) h m
        subst hx
        rw [List.count_cons_of_ne hoc.symm, List.count_cons_self]
        omega
      · simp only [if_neg hx] at h
        by_cases hc : x = c
        · simp only [if_pos hc] at h
          have e0 : (if d + 1 = 0 then 2 ^ 64 - 1 else d + 1 - 1) = d := by
            rw [if_neg (by omega)]
            omega
          rw [e0] at h
          by_cases hd : d = 0
          · subst hd
            simp at h
          · have e1 : d = (d - 1) + 1 := by omega
            rw [if_neg hd, e1] at h
            have := ih (d - 1) (i + 1) h m
            subst hc
            rw [List.count_cons_self, List.count_cons_of_ne (Ne.symm hx)]
            omega
        · simp only [if_neg hc] at h
          rw [if_neg (by omega)] at h
          have := ih d (i + 1) h m
          rw [List.count_cons_of_ne (Ne.symm hc), List.count_cons_of_ne (Ne.symm hx)]
          exact this

/-- Success of the extractor: the string is `open expr close rest` with `expr` balanced. -/
theorem processParenthetical_some (o c : Char) (str expr rest : Str)
    (h : processParenthetical str o c = some (expr, rest)) :
    str = o :: (expr ++ c :: rest) ∧ Balanced o c expr := by
  unfold processParenthetical at h
  split at h
  · exact absurd h (by simp)
  · rename_i hf
    simp only [ne_eq, not_not] at hf
    cases str with
    | nil => simp [scanParens] at h
    | cons x s1 =>
      simp only [front, List.headD_cons] at hf
      subst hf
      cases hs : scanParens x c (x :: s1) 0 0 with
      | none => simp [hs] at h
      | some j =>
        simp only [hs, Option.some.injEq, Prod.mk.injEq] at h
        rw [scanParens] at hs
        simp only [if_true] at hs
        rw [if_neg (by omega)] at hs
        obtain ⟨t, r, h1, h2, h3⟩ := scanParens_some x c s1 0 1 j hs
        subst h1
        subst h2
        have e1 : List.take (1 + t.length - 1) (List.drop 1 (x :: (t ++ c :: r))) = t := by
          simp
        have e2 : List.drop (1 + t.length + 1) (x :: (t ++ c :: r)) = r := by
          have : 1 + t.length + 1 = (t.length + 1) + 1 := by omega
          rw [this, List.drop_succ_cons]
          have e3 : t ++ c :: r = (t ++ [c]) ++ r := by simp
          rw [e3]
          exact List.drop_left' (by simp)
        rw [e1, e2] at h
        obtain ⟨rfl, rfl⟩ := h
        exact ⟨rfl, h3⟩

theorem take_open_expr_close (o c : Char) (expr rest : Str) :
    (o :: (expr ++ c :: rest)).take (expr.length + 2) = o :: (expr ++ [c]) := by
  have e3 : o :: (expr ++ c :: rest) = (o :: (expr ++ [c])) ++ rest := by simp
  rw [e3]
  exact List.take_left' (by simp)

/-- C14: parenthetical extractor, success case.  For every string and delimiter pair with
`open` different from `close`, if `processParenthetical` succeeds with outputs `expr` and
`rest`, then the string is `open ++ expr ++ close ++ rest`; every non-empty prefix that ends
before the chosen close delimiter has more opens than closes, and the prefix ending at it has
equally many (so it is the first position where the running count returns to zero); and
`expr` is balanced: no prefix of `expr` has more closes than opens, and `expr` has equally
many opens and closes. -/
theorem C14_extractor_success (o c : Char) (hoc : o ≠ c) (str expr rest : Str)
    (h : processParenthetical str o c = some (expr, rest)) :
    str = o :: (expr ++ c :: rest) ∧
    (∀ m, 1 ≤ m → m ≤ expr.length + 1 →
      List.count c (str.take m) < List.count o (str.take m)) ∧
    List.count o (str.take (expr.length + 2)) = List.count c (str.take (expr.length + 2)) ∧
    (∀ k, List.count c (expr.take k) ≤ List.count o (expr.take k)) ∧
    List.count o expr = List.count c expr := by
  obtain ⟨hstr, hbal⟩ := processParenthetical_some o c str expr rest h
  obtain ⟨h1, h2⟩ := depth_counts o c hoc expr 0 0 hbal
  refine ⟨hstr, ?_, ?_, fun k => by have := h1 k; omega, by omega⟩
  · intro m hm1 hm2
    obtain ⟨m1, rfl⟩ : ∃ m1, m = m1 + 1 := ⟨m - 1, by omega⟩
    rw [hstr, List.take_succ_cons, List.take_append_of_le_length (by omega),
      List.count_cons_of_ne hoc.symm, List.count_cons_self]
    have := h1 m1
    omega
  · rw [hstr, take_open_expr_close, List.count_cons_self, List.count_cons_of_ne hoc.symm,
      List.count_append, List.count_append, List.count_cons_self,
      List.count_cons_of_ne hoc]
    simp only [List.count_nil]
    omega

/-- Witness for C14: in `(a(b)c)d;e` the group body is `a(b)c` and the rest is `d;e`. -/
theorem C14_extractor_success_witness :
    "(a(b)c)d;e".toList = '(' :: ("a(b)c".toList ++ ')' :: "d;e".toList) ∧
      List.count '(' "a(b)c".toList = List.count ')' "a(b)c".toList :=
  ⟨(C14_extractor_success '(' ')' (by decide) "(a(b)c)d;e".toList "a(b)c".toList "d;e".toList
      (by decide)).1,
   (C14_extractor_success '(' ')' (by decide) "(a(b)c)d;e".toList "a(b)c".toList "d;e".toList
      (by decide)).2.2.2.2⟩

/-- The extractor fails exactly on strings that do not begin with the open delimiter or have
no non-empty prefix with equally many open and close delimiters. -/
theorem processParenthetical_none_iff (o c : Char) (hoc : o ≠ c) (str : Str) :
    processParenthetical str o c = none ↔
      (str.head? ≠ some o ∨ ∀ m, 1 ≤ m → m ≤ str.length →
        List.count o (str.take m) ≠ List.count c (str.take m)) := by
  constructor
  · intro h
    cases str with
    | nil => exact Or.inl (by simp)
    | cons x s1 =>
      by_cases hx : x = o
      · right
        subst hx
        unfold processParenthetical at h
        simp only [front, List.headD_cons, ne_eq, not_true_eq_false, if_false] at h
        have hs : scanParens x c s1 1 1 = none := by
          cases hs : scanParens x c (x :: s1) 0 0 with
          | none =>
            rw [scanParens] at hs
            simp only [if_true] at hs
            rw [if_neg (by omega)] at hs
            exact hs
          | some j => simp [hs] at h
        intro m hm1 _
        obtain ⟨m1, rfl⟩ : ∃ m1, m = m1 + 1 := ⟨m - 1, by omega⟩
        have := scanParens_none x c hoc s1 0 1 hs m1
        rw [List.take_succ_cons, List.count_cons_self, List.count_cons_of_ne hoc.symm]
        omega
      · exact Or.inl (by simpa using hx)
  · intro h
    cases hp : processParenthetical str o c with
    | none => rfl
    | some p =>
      exfalso
      obtain ⟨hstr, hbal⟩ := processParenthetical_some o c str p.1 p.2 hp
      obtain ⟨_, h2⟩ := depth_counts o c hoc p.1 0 0 hbal
      rcases h with h | h
      · rw [hstr] at h
        exact h rfl
      · have hlen : p.1.length + 2 ≤ str.length := by
          rw [hstr]
          simp only [List.length_cons, List.length_append]
          omega
        apply h (p.1.length + 2) (by omega) hlen
        rw [hstr, take_open_expr_close, List.count_cons_self, List.count_cons_of_ne hoc.symm,
          List.count_append, List.count_append, List.count_cons_self,
          List.count_cons_of_ne hoc]
        simp only [List.count_nil]
        omega

/-- C15: parenthetical extractor, failure case.  For every string and delimiter pair with
`open` different from `close`, `processParenthetical` fails if and only if the string does not
begin with `open` or no non-empty prefix of it has equally many open and close delimiters;
and when it fails, `expr` and `rest` keep the values they had before the call. -/
theorem C15_extractor_failure (o c : Char) (hoc : o ≠ c) (str : Str) :
    ((processParentheticalOut str o c [] []).1 = false ↔
      (str.head? ≠ some o ∨ ∀ m, 1 ≤ m → m ≤ str.length →
        List.count o (str.take m) ≠ List.count c (str.take m))) ∧
    (∀ expr rest, (processParentheticalOut str o c expr rest).1 = false →
      processParentheticalOut str o c expr rest = (false, expr, rest)) ∧
    (∀ expr rest, (processParentheticalOut str o c expr rest).1 =
      (processParentheticalOut str o c [] []).1) := by
  refine ⟨?_, ?_, ?_⟩
  · rw [← processParenthetical_none_iff o c hoc str]
    unfold processParentheticalOut
    cases processParenthetical str o c <;> simp
  · intro expr rest h
    unfold processParentheticalOut at h ⊢
    cases hp : processParenthetical str o c with
    | none => rfl
    | some p => simp [hp] at h
  · intro expr rest
    unfold processParentheticalOut
    cases processParenthetical str o c <;> rfl

/-- Witness for C15: `(a(b)` has no prefix with equally many `(` and `)`, and the call
fails leaving `expr = x` and `rest = y`. -/
theorem C15_extractor_failure_witness :
    processParentheticalOut "(a(b)".toList '(' ')' ['x'] ['y'] = (false, ['x'], ['y']) :=
  (C15_extractor_failure '(' ')' (by decide) "(a(b)".toList).2.1 ['x'] ['y'] (by decide)

/-! ### Arithmetic shorthand (C12) -/

/-- C12 (failing input): the line `3+4x`.  The shorthand accepts it although the second
literal `4` does not consume the rest of the line: 3 and 4 are pushed, `+` is executed and the
trailing `x` is ignored, leaving `[7]` with the success status.  Likewise `3+4+5` leaves `[7]`
and ignores `+5`.  The well-formed `3+4` leaves `[7]` as well. -/
theorem C12_shorthand_ignores_trailing_text :
    Runs exact State.init "3+4x".toList (.done .EXECUTED ⟨[num 7], [], []⟩) ∧
    Runs exact State.init "3+4+5".toList (.done .EXECUTED ⟨[num 7], [], []⟩) ∧
    Runs exact State.init "3+4".toList (.done .EXECUTED ⟨[num 7], [], []⟩) ∧
    (∀ r st, Runs exact State.init "3+4x".toList (.done r st) →
      r = .EXECUTED ∧ st.stack = [num 7]) := by
  have h : Runs exact State.init "3+4x".toList (.done .EXECUTED ⟨[num 7], [], []⟩) :=
    ⟨2, by decide, by simp⟩
  refine ⟨h, ⟨2, by decide, by simp⟩, ⟨2, by decide, by simp⟩, ?_⟩
  intro r st h2
  have e := Runs.unique h h2
  simp only [Outcome.done.injEq] at e
  exact ⟨e.1.symm, by rw [← e.2]⟩

/-! ### Continuation in recursive calls (C17) -/

/-- C17 (failing input): the line `1\;2`, which does not end in `\`.  Its first statement
`1\` is executed by a recursive call that stores `1` in the continuation buffer and returns
the incomplete-line status, which the outer call hands on: the statement `2` is dropped and
nothing is pushed, for every numeric library.  The same happens inside an index expression
(`[1\]`) and inside a grouped assignment (`a=(b\)`). -/
theorem C17_recursive_call_sets_buffer (N : NumberT α) :
    Runs N ⟨[], [], []⟩ "1\\;2".toList (.done .END_ESCAPED ⟨[], [], ['1']⟩) ∧
    back "1\\;2".toList ≠ '\\' ∧
    Runs exact State.init "[1\\]".toList (.done .END_ESCAPED ⟨[], [], ['1']⟩) ∧
    Runs exact State.init "a=(b\\)".toList (.done .END_ESCAPED ⟨[], [], "a=b".toList⟩) := by
  refine ⟨⟨2, ?_, by simp⟩, by decide, ⟨2, by decide, by simp⟩, ⟨2, by decide, by simp⟩⟩
  have hsplit := body_split N (execute N 1) [] [] "1\\;2".toList 2 (by decide) (by decide)
    (by decide) rfl (by decide)
  have hsub : execute N 1 (⟨[], [], []⟩ : State α) (['1'] ++ ['\\']) =
      .done .END_ESCAPED ⟨[], [], ['1']⟩ :=
    body_continuation N (execute N 0) [] [] ['1'] (by decide)
  show executeBody N (execute N 1) _ _ = _
  rw [hsplit]
  show EXECUTE_SUBEXPRESSION (execute N 1 _ (['1'] ++ ['\\'])) _ = _
  rw [hsub]
  rfl

/-! ### Malformed grouping (C16) -/

/-- The two delimiter pairs of the assignment forms. -/
theorem group_pair_cases {o c : Char} (h : (o = '(' ∧ c = ')') ∨ (o = '{' ∧ c = '}')) :
    o ≠ c ∧ (o = '(' ∨ (o ≠ '(' ∧ o = '{')) := by
  rcases h with ⟨rfl, rfl⟩ | ⟨rfl, rfl⟩
  · exact ⟨by decide, Or.inl rfl⟩
  · exact ⟨by decide, Or.inr ⟨by decide, rfl⟩⟩

/-- An assignment whose group is malformed goes straight to the error path. -/
theorem body_malformed (N : NumberT α) (exec : State α → Str → Outcome α)
    (stack : List α) (al : List (Str × Str)) (n value : Str) (o c : Char)
    (hoc : (o = '(' ∧ c = ')') ∨ (o = '{' ∧ c = '}'))
    (hn : '=' ∉ n) (hp : Plain (n ++ '=' :: value)) (hfront : front value = o)
    (hvne : value ≠ []) (hb : back value ≠ '\\')
    (hbad : (∀ m, 1 ≤ m → m ≤ value.length →
        List.count o (value.take m) ≠ List.count c (value.take m)) ∨
      (∃ e rest, value = o :: (e ++ c :: rest) ∧ Balanced o c e ∧ rest ≠ [] ∧
        front rest ≠ ';')) :
    executeBody N exec ⟨stack, al, []⟩ (n ++ '=' :: value) =
      err exec ⟨stack, al, []⟩ (n ++ '=' :: value) := by
  have hbk : back (n ++ '=' :: value) ≠ '\\' := by
    rw [back_append (by simp), back_cons hvne]
    exact hb
  rw [executeBody_plain N exec _ _ hp (by simp) hbk]
  have hproc : processParenthetical value o c = none ∨
      ∃ e rest, processParenthetical value o c = some (e, rest) ∧ rest ≠ [] ∧
        front rest ≠ ';' := by
    rcases hbad with h | ⟨e, rest, h1, h2, h3, h4⟩
    · exact Or.inl ((processParenthetical_none_iff o c (group_pair_cases hoc).1 value).mpr
        (Or.inr h))
    · exact Or.inr ⟨e, rest, by
        rw [h1]; exact processParenthetical_balanced o c (group_pair_cases hoc).1 e rest h2,
        h3, h4⟩
  simp only [classify, find_append value hn, assign, List.take_left, List.drop_append,
    List.drop_succ_cons, List.drop_zero, if_neg hvne, hfront]
  rcases hoc with ⟨rfl, rfl⟩ | ⟨rfl, rfl⟩
  · rcases hproc with h | ⟨e, rest, h1, h2, h3⟩
    · simp only [if_true, h]
    · simp only [if_true, h1, if_pos (And.intro h2 h3)]
  · have hne : ¬ ('{' = '(') := by decide
    rcases hproc with h | ⟨e, rest, h1, h2, h3⟩
    · simp only [if_neg hne, if_true, h]
    · simp only [if_neg hne, if_true, h1, if_pos (And.intro h2 h3)]

/-- C16 (as amended): malformed grouping in an assignment is a syntax error with no effect.
For every normalized assignment line `n=value` that does not end in the continuation marker,
whose right-hand side begins with `(` or a brace and either has no matching close delimiter
(no non-empty prefix with equally many open and close delimiters) or has text after the
matching close delimiter that is non-empty and does not begin with `;`: the call goes straight
to the error path whatever the recursive calls would do (the group body is not evaluated),
and the line returns the error status leaving the stack and the alias table as they were. -/
theorem C16_malformed_grouping (N : NumberT α) (stack : List α) (al : List (Str × Str))
    (n value : Str) (o c : Char) (hoc : (o = '(' ∧ c = ')') ∨ (o = '{' ∧ c = '}'))
    (hn : '=' ∉ n) (hp : Plain (n ++ '=' :: value)) (hfront : front value = o)
    (hvne : value ≠ []) (hb : back value ≠ '\\')
    (hbad : (∀ m, 1 ≤ m → m ≤ value.length →
        List.count o (value.take m) ≠ List.count c (value.take m)) ∨
      (∃ e rest, value = o :: (e ++ c :: rest) ∧ Balanced o c e ∧ rest ≠ [] ∧
        front rest ≠ ';')) :
    (∀ exec, executeBody N exec ⟨stack, al, []⟩ (n ++ '=' :: value) =
      err exec ⟨stack, al, []⟩ (n ++ '=' :: value)) ∧
    Runs N ⟨stack, al, []⟩ (n ++ '=' :: value) (.done .ERR ⟨stack, al, []⟩) := by
  have h1 := fun exec => body_malformed N exec stack al n value o c hoc hn hp hfront hvne hb hbad
  refine ⟨h1, ⟨2, ?_, by simp⟩⟩
  show executeBody N (execute N 1) _ _ = _
  rw [h1]
  by_cases hf : front (n ++ '=' :: value) ≠ '\\'
  · have h2 := body_malformed N (execute N 0) stack al ('\\' :: n) value o c hoc
      (by simp only [List.mem_cons, not_or]; exact ⟨by decide, hn⟩)
      (Plain.cons (by decide) hp) hfront hvne hb hbad
    simp only [err, if_pos hf]
    show executeBody N (execute N 0) _ (('\\' :: n) ++ '=' :: value) = _
    rw [h2]
    simp [err, front]
  · simp only [err, if_neg hf]

/-- Witness for C16: `a=(1;2)x` has text after the matching `)` that does not begin with `;`,
and returns the error status on the stack `[5]` without touching it. -/
theorem C16_malformed_grouping_witness :
    Runs exact ⟨[num 5], [], []⟩ "a=(1;2)x".toList (.done .ERR ⟨[num 5], [], []⟩) :=
  (C16_malformed_grouping exact [num 5] [] ['a'] "(1;2)x".toList '(' ')' (Or.inl ⟨rfl, rfl⟩)
    (by decide) (by decide) (by decide) (by decide) (by decide)
    (Or.inr ⟨"1;2".toList, ['x'], by decide, by decide, by decide, by decide⟩)).2

/-- Counterexample to C16 as stated: the right-hand side of `a=(1\` begins with `(` and has no
matching close delimiter, but the line ends in the continuation marker: it returns the
incomplete-line status with `a=(1` pending, not the error status. -/
theorem C16_counterexample :
    Runs exact State.init "a=(1\\".toList
      (.done .END_ESCAPED ⟨[], [], "a=(1".toList⟩) ∧
    ∀ st, ¬ Runs exact State.init "a=(1\\".toList (.done .ERR st) := by
  have h : Runs exact State.init "a=(1\\".toList
      (.done .END_ESCAPED ⟨[], [], "a=(1".toList⟩) := ⟨1, by decide, by simp⟩
  exact ⟨h, fun st h2 => absurd (Runs.unique h h2) (by simp)⟩

/-! ### Index direction (C18) -/

/-- C18 (as amended): the index direction is decided on the sign of the popped value itself,
before rounding.  When the index expression has succeeded leaving `s ++ [v]` (with fewer than
`2 ^ 64` values in `s`): if `v` is not negative and its nearest integer `r` satisfies
`r < n`, the dereference copies `s[r]`, counted from the oldest element; if `v` is negative
and its nearest integer is 0 (as for `-0.5 < v < 0`), the dereference addresses the index `n`,
which is outside the stack, and takes the error path with the stack `s`.  So `[-0.4]` on
`[10, 20, 30]` returns the error status and leaves the stack as it was, whereas `[0.4]`
appends 10. -/
theorem C18_index_direction (N : NumberT α) (exec : State α → Str → Outcome α)
    (st st1 : State α) (input : Str) (s : List α) (v : α)
    (hsub : exec st ((input.drop 1).take (input.length - 2)) = .done .EXECUTED st1)
    (hstack : st1.stack = s ++ [v]) (hsize : s.length < 2 ^ 64) :
    (N.ltZero v = false → ∀ r : Nat, N.llroundl v = (r : Int) → r < s.length →
      ∃ x, s.get? r = some x ∧
        dereference N exec st input = .done .EXECUTED { st1 with stack := s ++ [x] }) ∧
    (N.ltZero v = true → N.llroundl v = 0 →
      dereference N exec st input = err exec { st1 with stack := s } input) ∧
    Runs exact ⟨[num 10, num 20, num 30], [], []⟩ "[-0.4]".toList
      (.done .ERR ⟨[num 10, num 20, num 30], [], []⟩) ∧
    Runs exact ⟨[num 10, num 20, num 30], [], []⟩ "[0.4]".toList
      (.done .EXECUTED ⟨[num 10, num 20, num 30, num 10], [], []⟩) := by
  refine ⟨?_, ?_, ⟨3, by decide, by simp⟩, ⟨2, by decide, by simp⟩⟩
  · intro hs r hr hlt
    have hidx : derefIndex N v s.length = r := by
      simp only [derefIndex, hs, hr, Bool.false_eq_true, if_false]
      omega
    refine ⟨s.get ⟨r, hlt⟩, List.get?_eq_get hlt, ?_⟩
    simp only [dereference, hsub, EXECUTE_SUBEXPRESSION, hstack, pop_back_append, hidx,
      List.get?_eq_get hlt]
  · intro hs hr
    have hidx : derefIndex N v s.length = s.length := by
      simp only [derefIndex, hs, hr, if_true]
      omega
    have hnone : s.get? s.length = none := List.get?_eq_none.mpr (le_refl _)
    simp only [dereference, hsub, EXECUTE_SUBEXPRESSION, hstack, pop_back_append, hidx, hnone]

/-- Witness for C18: inside `[1.4]` on `[10, 20, 30]` the popped value 1.4 is not negative
and rounds to 1, so 20 is copied. -/
theorem C18_index_direction_witness :
    ∃ x, [num 10, num 20, num 30].get? 1 = some x ∧
      dereference exact (execute exact 1) ⟨[num 10, num 20, num 30], [], []⟩ "[1.4]".toList =
        .done .EXECUTED ⟨[num 10, num 20, num 30] ++ [x], [], []⟩ :=
  (C18_index_direction exact (execute exact 1) ⟨[num 10, num 20, num 30], [], []⟩
    ⟨[num 10, num 20, num 30, ⟨7, 5⟩], [], []⟩ "[1.4]".toList [num 10, num 20, num 30] ⟨7, 5⟩
    (by decide) rfl (by decide)).1 (by decide) 1 (by decide) (by decide)

/-- Counterexample to C18 as stated: the value -0.4 rounds to 0, which lies in `0 <= r < 3`,
but `[-0.4]` on `[10, 20, 30]` does not append 10: it returns the error status and leaves the
stack as it was. -/
theorem C18_counterexample :
    exact.llroundl ⟨-2, 5⟩ = 0 ∧
    Runs exact ⟨[num 10, num 20, num 30], [], []⟩ "-0.4".toList
      (.done .EXECUTED ⟨[num 10, num 20, num 30, ⟨-2, 5⟩], [], []⟩) ∧
    Runs exact ⟨[num 10, num 20, num 30], [], []⟩ "[-0.4]".toList
      (.done .ERR ⟨[num 10, num 20, num 30], [], []⟩) ∧
    ¬ Runs exact ⟨[num 10, num 20, num 30], [], []⟩ "[-0.4]".toList
      (.done .EXECUTED ⟨[num 10, num 20, num 30, num 10], [], []⟩) := by
  have h : Runs exact ⟨[num 10, num 20, num 30], [], []⟩ "[-0.4]".toList
      (.done .ERR ⟨[num 10, num 20, num 30], [], []⟩) := ⟨3, by decide, by simp⟩
  exact ⟨by decide, ⟨1, by decide, by simp⟩, h,
    fun h2 => absurd (Runs.unique h h2) (by simp)⟩

/-! ### Alias keys (C19) -/

theorem done_aliasInv {r r1 : ExecuteResult} {st st1 : State α}
    (h : Outcome.done r st = Outcome.done r1 st1) (hq : AliasInv st.aliases) :
    AliasInv st1.aliases := by
  cases h
  exact hq

theorem EXECUTE_SUBEXPRESSION_inv {res : Outcome α} {k : State α → Outcome α}
    {r : ExecuteResult} {st2 : State α}
    (hr : ∀ r1 st1, res = .done r1 st1 → AliasInv st1.aliases)
    (hk : ∀ st1, AliasInv st1.aliases → k st1 = .done r st2 → AliasInv st2.aliases)
    (h : EXECUTE_SUBEXPRESSION res k = .done r st2) : AliasInv st2.aliases := by
  cases res with
  | done r1 st1 =>
    cases r1
    · exact hk st1 (hr _ st1 rfl) h
    all_goals exact done_aliasInv h (hr _ st1 rfl)
  | invalidAccess => exact absurd h (by simp [EXECUTE_SUBEXPRESSION])
  | outOfFuel => exact absurd h (by simp [EXECUTE_SUBEXPRESSION])

theorem err_inv {exec : State α → Str → Outcome α} (he : KeepsKeys exec) {st st2 : State α}
    {input : Str} {r : ExecuteResult} (hst : AliasInv st.aliases)
    (h : err exec st input = .done r st2) : AliasInv st2.aliases := by
  unfold err at h
  split at h
  · exact he _ _ _ _ hst h
  · exact done_aliasInv h hst

theorem binary_inv {exec : State α → Str → Outcome α} (he : KeepsKeys exec) {st st2 : State α}
    {input : Str} {f : α → α → α} {r : ExecuteResult} (hst : AliasInv st.aliases)
    (h : binary exec st input f = .done r st2) : AliasInv st2.aliases := by
  unfold binary at h
  split at h
  · exact err_inv he hst h
  · split at h
    · exact done_aliasInv h hst
    · exact absurd h (by simp)

theorem unary_inv {exec : State α → Str → Outcome α} (he : KeepsKeys exec) {st st2 : State α}
    {input : Str} {f : α → α} {r : ExecuteResult} (hst : AliasInv st.aliases)
    (h : unary exec st input f = .done r st2) : AliasInv st2.aliases := by
  unfold unary at h
  split at h
  · exact err_inv he hst h
  · split at h
    · exact done_aliasInv h hst
    · exact absurd h (by simp)

theorem dereference_inv (N : NumberT α) {exec : State α → Str → Outcome α}
    (he : KeepsKeys exec) {st st2 : State α} {input : Str} {r : ExecuteResult}
    (hst : AliasInv st.aliases) (h : dereference N exec st input = .done r st2) :
    AliasInv st2.aliases := by
  unfold dereference at h
  refine EXECUTE_SUBEXPRESSION_inv (fun r1 st1 h1 => he _ _ _ _ hst h1) ?_ h
  intro st1 hst1 h1
  split at h1
  · exact absurd h1 (by simp)
  · split at h1
    · exact err_inv he (by exact hst1) h1
    · exact done_aliasInv h1 hst1

theorem commands_inv (N : NumberT α) {exec : State α → Str → Outcome α} (he : KeepsKeys exec)
    {st st2 : State α} {input : Str} {r : ExecuteResult} (hst : AliasInv st.aliases)
    (h : commands N exec st input = .done r st2) : AliasInv st2.aliases := by
  unfold commands at h
  by_cases c0 : input = ['\\', 'e', 'x', 'i', 't']
  · simp only [if_pos c0] at h
    exact done_aliasInv h hst
  simp only [if_neg c0] at h
  by_cases c1 : input = ['+']
  · simp only [if_pos c1] at h
    exact binary_inv he hst h
  simp only [if_neg c1] at h
  by_cases c2 : input = ['-']
  · simp only [if_pos c2] at h
    exact binary_inv he hst h
  simp only [if_neg c2] at h
  by_cases c3 : input = ['*']
  · simp only [if_pos c3] at h
    exact binary_inv he hst h
  simp only [if_neg c3] at h
  by_cases c4 : input = ['/']
  · simp only [if_pos c4] at h
    exact binary_inv he hst h
  simp only [if_neg c4] at h
  by_cases c5 : input = ['\\', 'p', 'o', 'w']
  · simp only [if_pos c5] at h
    exact binary_inv he hst h
  simp only [if_neg c5] at h
  by_cases c6 : input = ['1', '/']
  · simp only [if_pos c6] at h
    exact unary_inv he hst h
  simp only [if_neg c6] at h
  by_cases c7 : input = ['\\', 'c', 'l', 'e', 'a', 'r']
  · simp only [if_pos c7] at h
    exact done_aliasInv h hst
  simp only [if_neg c7] at h
  by_cases c8 : input = ['\\', 's', 'w', 'a', 'p']
  · simp only [if_pos c8] at h
    split at h
    · exact err_inv he hst h
    · split at h
      · exact done_aliasInv h hst
      · exact absurd h (by simp)
  simp only [if_neg c8] at h
  by_cases c9 : input = ['\\', 'r', 'o', 'l', 'l']
  · simp only [if_pos c9] at h
    split at h
    · exact err_inv he hst h
    · split at h
      · exact done_aliasInv h hst
      · exact absurd h (by simp)
  simp only [if_neg c9] at h
  by_cases c10 : input = ['\\', 'd', 'r', 'o', 'p']
  · simp only [if_pos c10] at h
    split at h
    · exact err_inv he hst h
    · exact done_aliasInv h hst
  simp only [if_neg c10] at h
  by_cases c11 : front input = '[' ∧ back input = ']'
  · simp only [if_pos c11] at h
    exact dereference_inv N he hst h
  simp only [if_neg c11] at h
  by_cases c12 : input = ['!', '!']
  · simp only [if_pos c12] at h
    split at h
    · exact err_inv he hst h
    · split at h
      · exact done_aliasInv h hst
      · exact absurd h (by simp)
  simp only [if_neg c12] at h
  by_cases c13 : input = ['\\', 'a', 'l', 'i', 'a', 's', 'e', 's']
  · simp only [if_pos c13] at h
    exact done_aliasInv h hst
  simp only [if_neg c13] at h
  split at h
  · exact unary_inv he hst h
  · split at h
    · exact err_inv he hst h
    · split at h
      · exact err_inv he hst h
      · exact done_aliasInv h hst

theorem arithmetic_inv (N : NumberT α) {exec : State α → Str → Outcome α}
    (he : KeepsKeys exec) {st st2 : State α} {input : Str} {r : ExecuteResult}
    (hst : AliasInv st.aliases) (h : arithmetic N exec st input = .done r st2) :
    AliasInv st2.aliases := by
  unfold arithmetic at h
  split at h
  · exact commands_inv N he hst h
  · split at h
    · exact commands_inv N he hst h
    · split at h
      · exact commands_inv N he hst h
      · split at h
        · split at h
          · exact commands_inv N he hst h
          · split at h
            · exact he _ _ _ _ (by exact hst) h
            · exact commands_inv N he hst h
        · exact commands_inv N he hst h

theorem aliasInv_erase {al : List (Str × Str)} (n : Str) (h : AliasInv al) :
    AliasInv (aliasErase n al) :=
  fun kv hkv => h kv (List.mem_of_mem_filter hkv)

theorem aliasInv_assign {al : List (Str × Str)} {n : Str} (v : Str) (hn : KeyOK n)
    (h : AliasInv al) : AliasInv (aliasAssign n v al) := by
  induction al with
  | nil =>
    intro kv hkv
    simp only [aliasAssign, List.mem_singleton] at hkv
    rw [hkv]
    exact hn
  | cons x rest ih =>
    obtain ⟨k, w⟩ := x
    have hrest : AliasInv rest := fun kv hkv => h kv (List.mem_cons_of_mem _ hkv)
    intro kv hkv
    simp only [aliasAssign] at hkv
    split at hkv
    · rcases List.mem_cons.mp hkv with e | e
      · rw [e]; exact hn
      · exact hrest kv e
    · split at hkv
      · rcases List.mem_cons.mp hkv with e | e
        · rw [e]; exact hn
        · exact h kv e
      · rcases List.mem_cons.mp hkv with e | e
        · rw [e]; exact h (k, w) (List.mem_cons_self _ _)
        · exact ih hrest kv e

theorem assign_inv (N : NumberT α) {exec : State α → Str → Outcome α} (he : KeepsKeys exec)
    {st st2 : State α} {input : Str} {eqPos : Nat} {r : ExecuteResult}
    (hst : AliasInv st.aliases) (hfind : find '=' input = some eqPos)
    (hin : ∀ c ∈ input, isspace c = false)
    (h : assign N exec st input eqPos = .done r st2) : AliasInv st2.aliases := by
  have hkey : KeyOK (input.take eqPos) :=
    ⟨(find_some_split hfind).1, fun c hc => hin c (List.mem_of_mem_take hc)⟩
  unfold assign at h
  simp only at h
  split at h
  · exact done_aliasInv h (aliasInv_erase _ hst)
  · split at h
    · split at h
      · exact err_inv he hst h
      · split at h
        · exact err_inv he hst h
        · refine EXECUTE_SUBEXPRESSION_inv (fun r1 st1 h1 => he _ _ _ _ hst h1) ?_ h
          intro st1 hst1 h1
          split at h1
          · exact he _ _ _ _ hst1 h1
          · exact done_aliasInv h1 hst1
    · split at h
      · split at h
        · exact err_inv he hst h
        · split at h
          · exact err_inv he hst h
          · refine EXECUTE_SUBEXPRESSION_inv (fun r1 st1 h1 => he _ _ _ _ hst h1) ?_ h
            intro st1 hst1 h1
            split at h1
            · exact err_inv he hst1 h1
            · refine EXECUTE_SUBEXPRESSION_inv
                (fun r1 st3 h3 => he _ _ _ _ (by exact hst1) h3) ?_ h1
              intro st3 hst3 h3
              split at h3
              · exact he _ _ _ _ hst3 h3
              · exact done_aliasInv h3 hst3
      · exact done_aliasInv h (aliasInv_assign _ hkey hst)

theorem classify_inv (N : NumberT α) {exec : State α → Str → Outcome α} (he : KeepsKeys exec)
    {st st2 : State α} {input : Str} {r : ExecuteResult} (hst : AliasInv st.aliases)
    (hin : ∀ c ∈ input, isspace c = false)
    (h : classify N exec st input = .done r st2) : AliasInv st2.aliases := by
  unfold classify at h
  split at h
  · rename_i eqPos hfind
    exact assign_inv N he hst hfind hin h
  · split at h
    · exact he _ _ _ _ hst h
    · split at h
      · exact EXECUTE_SUBEXPRESSION_inv (fun r1 st1 h1 => he _ _ _ _ hst h1)
          (fun st1 hst1 h1 => he _ _ _ _ hst1 h1) h
      · exact arithmetic_inv N he hst h

theorem normalized_no_space (x : Str) :
    ∀ c ∈ eraseComment (eraseWhitespace x), isspace c = false := by
  intro c hc
  have hmem : c ∈ eraseWhitespace x := by
    unfold eraseComment at hc
    split at hc
    · exact List.mem_of_mem_take hc
    · exact hc
  have := (List.mem_filter.mp hmem).2
  simpa using this

theorem executeBody_inv (N : NumberT α) {exec : State α → Str → Outcome α}
    (he : KeepsKeys exec) {st st2 : State α} {line : Str} {r : ExecuteResult}
    (hst : AliasInv st.aliases) (h : executeBody N exec st line = .done r st2) :
    AliasInv st2.aliases := by
  unfold executeBody at h
  simp only at h
  split at h
  · exact done_aliasInv h hst
  · split at h
    · exact done_aliasInv h hst
    · exact classify_inv N he (by exact hst) (normalized_no_space _) h

/-- Every call of `execute` maintains the key property of the alias table. -/
theorem execute_inv (N : NumberT α) (fuel : Nat) : KeepsKeys (execute N fuel) := by
  induction fuel with
  | zero => intro st input r st1 _ h; exact absurd h (by simp [execute])
  | succ n ih => intro st input r st1 hst h; exact executeBody_inv N ih hst h

theorem runsAll_inv (N : NumberT α) (lines : List Str) :
    ∀ st st1 : State α, AliasInv st.aliases → RunsAll N st lines st1 →
      AliasInv st1.aliases := by
  induction lines with
  | nil =>
    intro st st1 hst h
    simp only [RunsAll] at h
    rw [h]
    exact hst
  | cons line rest ih =>
    intro st st1 hst h
    obtain ⟨r, st2, ⟨n, hn, _⟩, hrest⟩ := h
    exact ih st2 st1 (execute_inv N n _ _ _ _ hst hn) hrest

/-- C19 (as amended): alias-name invariant.  Starting from the empty alias table, after
executing any sequence of lines every key of the alias table contains no `=` and no whitespace
character.  A key can be empty: from the empty state the line `=5` binds the empty name. -/
theorem C19_alias_keys (N : NumberT α) (lines : List Str) (st1 : State α)
    (h : RunsAll N State.init lines st1) :
    (∀ kv ∈ st1.aliases, '=' ∉ kv.1 ∧ ∀ c ∈ kv.1, isspace c = false) ∧
    Runs exact State.init "=5".toList (.done .EXECUTED ⟨[], [([], ['5'])], []⟩) :=
  ⟨runsAll_inv N lines State.init st1 (fun kv hkv => absurd hkv (by simp [State.init])) h,
   ⟨1, by decide, by simp⟩⟩

/-- Witness for C19: after the lines `a b = 1` and `c=(2)` the table has the keys `ab` and
`c`; the key `ab` has no `=` and no whitespace. -/
theorem C19_alias_keys_witness :
    '=' ∉ "ab".toList ∧ ∀ c ∈ "ab".toList, isspace c = false :=
  (C19_alias_keys exact ["a b = 1".toList, "c=(2)".toList]
    ⟨[], [("ab".toList, ['1']), (['c'], ['2'])], []⟩
    ⟨.EXECUTED, ⟨[], [("ab".toList, ['1'])], []⟩, ⟨1, by decide, by simp⟩,
      .EXECUTED, ⟨[], [("ab".toList, ['1']), (['c'], ['2'])], []⟩, ⟨2, by decide, by simp⟩,
      rfl⟩).1 ("ab".toList, ['1']) (List.mem_cons_self _ _)

/-- Counterexample to C19 as stated: from the empty state the line `=5` returns success and
leaves the alias table with the empty string as a key. -/
theorem C19_counterexample :
    Runs exact State.init "=5".toList (.done .EXECUTED ⟨[], [([], ['5'])], []⟩) ∧
    ∃ st, RunsAll exact State.init ["=5".toList] st ∧ ∃ kv ∈ st.aliases, kv.1 = [] := by
  have h : Runs exact State.init "=5".toList (.done .EXECUTED ⟨[], [([], ['5'])], []⟩) :=
    ⟨1, by decide, by simp⟩
  exact ⟨h, ⟨[], [([], ['5'])], []⟩, ⟨.EXECUTED, _, h, rfl⟩, ([], ['5']), by simp, rfl⟩

/-! ### Termination without aliases (C20) -/

theorem settled_done (r : ExecuteResult) (st : State α) (h : st.aliases = []) :
    Settled (Outcome.done r st) :=
  ⟨by simp, fun r1 st1 e => by cases e; exact h⟩

theorem settled_invalid : Settled (Outcome.invalidAccess : Outcome α) :=
  ⟨by simp, fun r1 st1 e => by cases e⟩

theorem EXECUTE_SUBEXPRESSION_settled {res : Outcome α} {k : State α → Outcome α}
    (hr : Settled res) (hk : ∀ st1, res = .done .EXECUTED st1 → Settled (k st1)) :
    Settled (EXECUTE_SUBEXPRESSION res k) := by
  cases res with
  | done r st1 =>
    cases r
    · exact hk st1 rfl
    all_goals exact hr
  | invalidAccess => exact hr
  | outOfFuel => exact hr

/-- The error path settles when the retry does. -/
theorem err_settled (exec : State α → Str → Outcome α) (stack : List α) (input : Str)
    (hret : front input ≠ '\\' → Settled (exec ⟨stack, [], []⟩ ('\\' :: input))) :
    Settled (err exec ⟨stack, [], []⟩ input) := by
  unfold err
  split
  · rename_i hf
    exact hret hf
  · exact settled_done _ _ rfl

theorem binary_settled (exec : State α → Str → Outcome α) (stack : List α) (input : Str)
    (f : α → α → α)
    (hret : front input ≠ '\\' → Settled (exec ⟨stack, [], []⟩ ('\\' :: input))) :
    Settled (binary exec ⟨stack, [], []⟩ input f) := by
  unfold binary
  split
  · exact err_settled exec stack input hret
  · split
    · exact settled_done _ _ rfl
    · exact settled_invalid

theorem unary_settled (exec : State α → Str → Outcome α) (stack : List α) (input : Str)
    (f : α → α)
    (hret : front input ≠ '\\' → Settled (exec ⟨stack, [], []⟩ ('\\' :: input))) :
    Settled (unary exec ⟨stack, [], []⟩ input f) := by
  unfold unary
  split
  · exact err_settled exec stack input hret
  · split
    · exact settled_done _ _ rfl
    · exact settled_invalid

/-- A state with empty alias table and empty buffer is determined by its stack. -/
theorem state_eq_of_empty {st : State α} (h1 : st.aliases = []) (h2 : st.lastInput = []) :
    st = ⟨st.stack, [], []⟩ := by
  cases st
  simp only at h1 h2
  rw [h1, h2]

theorem dereference_settled (N : NumberT α) (exec : State α → Str → Outcome α)
    (stack : List α) (input : Str) (hnil : NilBuf exec)
    (hret : ∀ stack1, front input ≠ '\\' → Settled (exec ⟨stack1, [], []⟩ ('\\' :: input)))
    (hsub : Settled (exec ⟨stack, [], []⟩ ((input.drop 1).take (input.length - 2)))) :
    Settled (dereference N exec ⟨stack, [], []⟩ input) := by
  unfold dereference
  refine EXECUTE_SUBEXPRESSION_settled hsub ?_
  intro st1 h1
  have ha : st1.aliases = [] := hsub.2 _ _ h1
  have hb : st1.lastInput = [] := hnil _ _ _ h1
  split
  · exact settled_invalid
  · split
    · rw [ha, hb]
      exact err_settled exec _ input (hret _)
    · exact settled_done _ _ ha

theorem commands_settled (N : NumberT α) (exec : State α → Str → Outcome α)
    (stack : List α) (input : Str) (hnil : NilBuf exec)
    (hret : ∀ stack1, front input ≠ '\\' → Settled (exec ⟨stack1, [], []⟩ ('\\' :: input)))
    (hsub : front input = '[' →
      Settled (exec ⟨stack, [], []⟩ ((input.drop 1).take (input.length - 2)))) :
    Settled (commands N exec ⟨stack, [], []⟩ input) := by
  unfold commands
  by_cases c0 : input = ['\\', 'e', 'x', 'i', 't']
  · simp only [if_pos c0]
    exact settled_done _ _ rfl
  simp only [if_neg c0]
  by_cases c1 : input = ['+']
  · simp only [if_pos c1]
    exact binary_settled exec stack input _ (hret stack)
  simp only [if_neg c1]
  by_cases c2 : input = ['-']
  · simp only [if_pos c2]
    exact binary_settled exec stack input _ (hret stack)
  simp only [if_neg c2]
  by_cases c3 : input = ['*']
  · simp only [if_pos c3]
    exact binary_settled exec stack input _ (hret stack)
  simp only [if_neg c3]
  by_cases c4 : input = ['/']
  · simp only [if_pos c4]
    exact binary_settled exec stack input _ (hret stack)
  simp only [if_neg c4]
  by_cases c5 : input = ['\\', 'p', 'o', 'w']
  · simp only [if_pos c5]
    exact binary_settled exec stack input _ (hret stack)
  simp only [if_neg c5]
  by_cases c6 : input = ['1', '/']
  · simp only [if_pos c6]
    exact unary_settled exec stack input _ (hret stack)
  simp only [if_neg c6]
  by_cases c7 : input = ['\\', 'c', 'l', 'e', 'a', 'r']
  · simp only [if_pos c7]
    exact settled_done _ _ rfl
  simp only [if_neg c7]
  by_cases c8 : input = ['\\', 's', 'w', 'a', 'p']
  · simp only [if_pos c8]
    split
    · exact err_settled exec _ input (hret stack)
    · split
      · exact settled_done _ _ rfl
      · exact settled_invalid
  simp only [if_neg c8]
  by_cases c9 : input = ['\\', 'r', 'o', 'l', 'l']
  · simp only [if_pos c9]
    split
    · exact err_settled exec _ input (hret stack)
    · split
      · exact settled_done _ _ rfl
      · exact settled_invalid
  simp only [if_neg c9]
  by_cases c10 : input = ['\\', 'd', 'r', 'o', 'p']
  · simp only [if_pos c10]
    split
    · exact err_settled exec _ input (hret stack)
    · exact settled_done _ _ rfl
  simp only [if_neg c10]
  by_cases c11 : front input = '[' ∧ back input = ']'
  · simp only [if_pos c11]
    exact dereference_settled N exec stack input hnil hret (hsub c11.1)
  simp only [if_neg c11]
  by_cases c12 : input = ['!', '!']
  · simp only [if_pos c12]
    split
    · exact err_settled exec _ input (hret stack)
    · split
      · exact settled_done _ _ rfl
      · exact settled_invalid
  simp only [if_neg c12]
  by_cases c13 : input = ['\\', 'a', 'l', 'i', 'a', 's', 'e', 's']
  · simp only [if_pos c13]
    exact settled_done _ _ rfl
  simp only [if_neg c13]
  split
  · exact unary_settled exec stack input _ (hret stack)
  · split
    · exact err_settled exec _ input (hret stack)
    · split
      · exact err_settled exec _ input (hret stack)
      · exact settled_done _ _ rfl

theorem arithmetic_settled (N : NumberT α) (exec : State α → Str → Outcome α)
    (stack : List α) (input : Str) (hnil : NilBuf exec)
    (hret : ∀ stack1, front input ≠ '\\' → Settled (exec ⟨stack1, [], []⟩ ('\\' :: input)))
    (hsub : front input = '[' →
      Settled (exec ⟨stack, [], []⟩ ((input.drop 1).take (input.length - 2))))
    (hop : ∀ stack1 op, isOperator op → 3 ≤ input.length →
      Settled (exec ⟨stack1, [], []⟩ [op])) :
    Settled (arithmetic N exec ⟨stack, [], []⟩ input) := by
  have hc := commands_settled N exec stack input hnil hret hsub
  unfold arithmetic
  split
  · exact hc
  · split
    · exact hc
    · rename_i hlen
      split
      · exact hc
      · split
        · rename_i hopc
          split
          · exact hc
          · split
            · exact hop _ _ hopc (by omega)
            · exact hc
        · exact hc

theorem find_none_not_mem {c : Char} {s : Str} (h : find c s = none) : c ∉ s := by
  induction s with
  | nil => simp
  | cons x xs ih =>
    by_cases hx : x = c
    · simp [find, hx] at h
    · simp only [find, if_neg hx, Option.map_eq_none'] at h
      simp only [List.mem_cons, not_or]
      exact ⟨fun e => hx e.symm, ih h⟩

theorem find_some_lengths {c : Char} {s : Str} {i : Nat} (h : find c s = some i) :
    (s.take i).length + (s.drop (i + 1)).length + 1 = s.length := by
  have h2 := congrArg List.length (find_some_split h).2
  simp only [List.length_append, List.length_cons] at h2
  omega

theorem classify_settled (N : NumberT α) (exec : State α → Str → Outcome α)
    (stack : List α) (input : Str) (len : Nat) (hnil : NilBuf exec)
    (hterm : Terminates exec len)
    (hret : ';' ∉ input → ∀ stack1, front input ≠ '\\' →
      Settled (exec ⟨stack1, [], []⟩ ('\\' :: input)))
    (hlen : input.length ≤ len + 1) (heq : '=' ∉ input) :
    Settled (classify N exec ⟨stack, [], []⟩ input) := by
  unfold classify
  rw [find_eq_none heq]
  simp only [aliasFind]
  cases hs : find ';' input with
  | some i =>
    simp only
    have hl := find_some_lengths hs
    have h1 : Settled (exec ⟨stack, [], []⟩ (input.take i)) :=
      hterm stack _ (by omega) (fun hm => heq (List.mem_of_mem_take hm))
    refine EXECUTE_SUBEXPRESSION_settled h1 ?_
    intro st1 e1
    rw [state_eq_of_empty (h1.2 _ _ e1) (hnil _ _ _ e1)]
    exact hterm _ _ (by omega) (fun hm => heq (List.mem_of_mem_drop hm))
  | none =>
    simp only
    refine arithmetic_settled N exec stack input hnil (hret (find_none_not_mem hs)) ?_ ?_
    · intro _
      refine hterm stack _ ?_ (fun hm => heq (List.mem_of_mem_drop (List.mem_of_mem_take hm)))
      simp only [List.length_take, List.length_drop]
      omega
    · intro stack1 op hop h3
      refine hterm stack1 [op] (by simp only [List.length_singleton]; omega) ?_
      rcases hop with rfl | rfl | rfl | rfl <;> decide

theorem normalized_plain (x : Str) : Plain (eraseComment (eraseWhitespace x)) := by
  intro c hc
  refine ⟨normalized_no_space x c hc, ?_⟩
  rintro rfl
  unfold eraseComment at hc
  split at hc
  · rename_i i hi
    exact (find_some_split hi).1 hc
  · rename_i hi
    exact find_none_not_mem hi hc

theorem normalized_sub (x : Str) :
    (eraseComment (eraseWhitespace x)).length ≤ x.length ∧
      ∀ c ∈ eraseComment (eraseWhitespace x), c ∈ x := by
  have h1 : (eraseWhitespace x).length ≤ x.length := List.length_filter_le _ _
  have h2 : ∀ c ∈ eraseWhitespace x, c ∈ x := fun c hc => List.mem_of_mem_filter hc
  unfold eraseComment
  split
  · rename_i i _
    refine ⟨?_, fun c hc => h2 c (List.mem_of_mem_take hc)⟩
    have h3 : (List.take i (eraseWhitespace x)).length ≤ (eraseWhitespace x).length := by
      rw [List.length_take]
      exact Nat.min_le_right _ _
    exact le_trans h3 h1
  · exact ⟨h1, h2⟩

theorem executeBody_settled (N : NumberT α) (exec : State α → Str → Outcome α)
    (stack : List α) (line : Str) (len : Nat) (hnil : NilBuf exec)
    (hterm : Terminates exec len)
    (hretry : ∀ stack1 t, Plain t → t ≠ [] → back t ≠ '\\' → '=' ∉ t → ';' ∉ t →
      Settled (exec ⟨stack1, [], []⟩ ('\\' :: t)))
    (hlen : line.length ≤ len + 1) (heq : '=' ∉ line) :
    Settled (executeBody N exec ⟨stack, [], []⟩ line) := by
  obtain ⟨hl, hsub⟩ := normalized_sub line
  have hp := normalized_plain line
  unfold executeBody
  simp only [List.nil_append]
  split
  · exact settled_done _ _ rfl
  · rename_i hne
    split
    · exact settled_done _ _ rfl
    · rename_i hb
      have heq1 : '=' ∉ eraseComment (eraseWhitespace line) := fun hm => heq (hsub _ hm)
      exact classify_settled N exec stack _ len hnil hterm
        (fun hsep stack1 _ => hretry stack1 _ hp hne hb heq1 hsep) (le_trans hl hlen) heq1

/-- The retried, escaped text is settled by the command chain alone. -/
theorem retry_settled (N : NumberT α) (exec : State α → Str → Outcome α) (hnil : NilBuf exec)
    (stack : List α) (t : Str) (hp : Plain t) (hne : t ≠ []) (hb : back t ≠ '\\')
    (heq : '=' ∉ t) (hsep : ';' ∉ t) :
    Settled (executeBody N exec ⟨stack, [], []⟩ ('\\' :: t)) := by
  have hbk : back ('\\' :: t) ≠ '\\' := by rw [back_cons hne]; exact hb
  have h1 : '=' ∉ '\\' :: t := by
    simp only [List.mem_cons, not_or]
    exact ⟨by decide, heq⟩
  have h2 : ';' ∉ '\\' :: t := by
    simp only [List.mem_cons, not_or]
    exact ⟨by decide, hsep⟩
  have h3 : aliasFind ('\\' :: t) (⟨stack, [], []⟩ : State α).aliases = none := rfl
  have h4 : front ('\\' :: t) ≠ '[' := by
    simp only [front, List.headD_cons]
    decide
  rw [executeBody_plain N exec _ _ (Plain.cons (by decide) hp) (by simp) hbk,
    classify_simple N exec _ h1 h3 h2, arithmetic_escape]
  exact commands_settled N exec stack _ hnil (fun _ hf => absurd rfl hf)
    (fun hf => absurd hf h4)

/-- Lines of at most `m` characters without `=` are settled with `m + 1` levels of calls. -/
theorem execute_terminates (N : NumberT α) : ∀ m, Terminates (execute N (m + 1)) m := by
  intro m
  induction m with
  | zero =>
    intro stack line hlen _
    have hl : line = [] := List.length_eq_zero.mp (Nat.le_zero.mp hlen)
    subst hl
    exact settled_done _ _ rfl
  | succ m ih =>
    intro stack line hlen heq
    exact executeBody_settled N (execute N (m + 1)) stack line m (execute_nil N (m + 1)) ih
      (fun stack1 t hp hne hb h1 h2 =>
        retry_settled N (execute N m) (execute_nil N m) stack1 t hp hne hb h1 h2)
      hlen heq

/-- C20 (failing input): the line `1;[\drop]` from the empty state, which contains no `=`.
With an empty alias table and an empty continuation buffer, the evaluation of a line without
`=` needs at most the line's length plus one nested calls (every recursive call is on a
shorter text, but for the one escape retry), and it ends in one of two ways: it returns a
status with the alias table still empty, or it runs into `pop_back()` on an empty stack inside
an index dereference, where the call returns nothing.  The second way is taken by `1;[\drop]`:
`1` is pushed, the index expression `\drop` removes it, and the dereference pops the empty
stack. -/
theorem C20_evaluation_ends_or_faults (N : NumberT α) (stack : List α) (line : Str)
    (h : '=' ∉ line) :
    (∃ o, Runs N ⟨stack, [], []⟩ line o ∧
      execute N (line.length + 1) ⟨stack, [], []⟩ line = o ∧
      (o = .invalidAccess ∨ ∃ r st1, o = .done r st1 ∧ st1.aliases = [])) ∧
    '=' ∉ "1;[\\drop]".toList ∧
    Runs exact ⟨[], [], []⟩ "1;[\\drop]".toList .invalidAccess ∧
    (∀ r st, ¬ Runs exact ⟨[], [], []⟩ "1;[\\drop]".toList (.done r st)) := by
  have hs := execute_terminates N line.length stack line (le_refl _) h
  have hf : Runs exact ⟨[], [], []⟩ "1;[\\drop]".toList .invalidAccess :=
    ⟨3, by decide, by simp⟩
  refine ⟨⟨_, ⟨line.length + 1, rfl, hs.1⟩, rfl, ?_⟩, by decide, hf,
    fun r st h2 => absurd (Runs.unique hf h2) (by simp)⟩
  cases ho : execute N (line.length + 1) ⟨stack, [], []⟩ line with
  | done r st1 => exact Or.inr ⟨r, st1, rfl, hs.2 r st1 ho⟩
  | invalidAccess => exact Or.inl rfl
  | outOfFuel => exact absurd ho hs.1

/-- Witness for C20: the line `3;4;+;foo` returns the error status with the stack `[7]` and
the empty alias table, within a budget of its length plus one. -/
theorem C20_evaluation_ends_or_faults_witness :
    ∃ o, Runs exact ⟨[], [], []⟩ "3;4;+;foo".toList o ∧
      execute exact ("3;4;+;foo".toList.length + 1) ⟨[], [], []⟩ "3;4;+;foo".toList = o ∧
      (o = .invalidAccess ∨ ∃ r st1, o = .done r st1 ∧ st1.aliases = []) :=
  (C20_evaluation_ends_or_faults exact [] "3;4;+;foo".toList (by decide)).1

end Claims

end CTRCalculator
